import Mathlib

/-!
Verification of the ANTgen activity/appliance synthesis engine.

This file gives a shallow embedding of the synthesis core of the ANTgen
trace generator (files Tools.py, LoadModelComponents.py, ApplianceModel.py,
ActivityModel.py, UserModel.py and the synthesis loop of antgen.py) and
proves properties of the embedded code.

Modelling conventions:
* Python float arithmetic is modelled with exact rationals.
* Per-second bitmaps (the bitarray vectors) are Lists of Bool and
  per-second power arrays are Lists of rationals.
* The process-wide generator of the random module is modelled as a cursor
  into an abstract stream of rational draws; random.random() returns the
  fractional part of the current stream element, which is a value in [0,1).
  NumPy's distinct global generator (np.random), used by the noise load
  model, is modelled as a second, independent stream of the same shape.
* The transcendental functions used by the decay and growth load models
  (float exp and log) are passed in as opaque rational functions in a
  context record, together with the fuel used for the two unbounded loops
  of the source (the noise redraw loop and the state-machine walk).
* Python runtime errors that the synthesis core can raise (KeyError on a
  missing dictionary key, AttributeError on an unbound appliance, IndexError
  on random.choice of an empty sequence) abort the whole run; functions that
  can hit them return Option, with none for the aborted run.  Fuel
  exhaustion of the modelled loops also yields none.
-/

namespace Antgen

/-! ## Generic list helpers (bitarray / numpy slice primitives) -/

/-- Modification of a slice: setRangeAux v l s n sets the n entries of l
starting at position s to v, truncating at the end of the list exactly like
a Python slice assignment does. -/
def setRangeAux (v : Bool) : List Bool → ℕ → ℕ → List Bool
  | [], _, _ => []
  | b :: t, 0, 0 => b :: t
  | _ :: t, 0, n + 1 => v :: setRangeAux v t 0 n
  | b :: t, s + 1, n => b :: setRangeAux v t s n

/-- Slice assignment bm[s : s+n] = v on a bitmap. -/
def setRange (l : List Bool) (s n : ℕ) (v : Bool) : List Bool :=
  setRangeAux v l s n

/-- Slice extraction bm[s : s+n], truncating like a Python slice. -/
def slice (l : List α) (s n : ℕ) : List α :=
  (l.drop s).take n

/-- Test bm[s : s+n].all() on a bitmap. -/
def sliceAll (l : List Bool) (s n : ℕ) : Bool :=
  (slice l s n).all id

/-- The elementwise AND of two equal-length bitmaps. -/
def bitAnd (a b : List Bool) : List Bool :=
  List.zipWith and a b

/-- Number of true bits, as in bitarray.count(True). -/
def bcount (l : List Bool) : ℕ :=
  l.count true

/-- An all-zero power array, np.zeros. -/
def zeros (n : ℕ) : List ℚ :=
  List.replicate n 0

/-- Elementwise sum of two power arrays of the same length. -/
def addArr (a b : List ℚ) : List ℚ :=
  List.zipWith (· + ·) a b

/-- In-place slice addition arr[s : s+vals.length] += vals; entries of vals
falling beyond the end of arr are dropped.  (All uses in the embedded code
stay within bounds.) -/
def addRange : List ℚ → ℕ → List ℚ → List ℚ
  | [], _, _ => []
  | x :: t, 0, [] => x :: t
  | x :: t, 0, v :: vs => (x + v) :: addRange t 0 vs
  | x :: t, s + 1, vs => x :: addRange t s vs

/-! ## The two pseudo-random streams -/

/-- State of the seeded random module generator: a cursor into an abstract
stream of rational draws.  Seeding fixes the stream; one run consumes the
stream left to right. -/
def Rng : Type := ℕ × (ℕ → ℚ)

/-- The state of the separate np.random global generator, which the program
never seeds. -/
def NpRng : Type := ℕ × (ℕ → ℚ)

/-- Draw of random.random(): a value in [0, 1). -/
def rand01 (g : Rng) : ℚ × Rng :=
  (Int.fract (g.2 g.1), (g.1 + 1, g.2))

/-- Draw of random.randint(a, b): a uniform integer in [a, b] (the caller
guarantees a ≤ b; the source raises otherwise). -/
def randint (a b : ℤ) (g : Rng) : ℤ × Rng :=
  let (u, g1) := rand01 g
  (a + ⌊u * ((b : ℚ) + 1 - a)⌋, g1)

/-- Python round(): round half to even. -/
def pyRound (q : ℚ) : ℤ :=
  let f := ⌊q⌋
  let r := q - f
  if r < 1/2 then f
  else if 1/2 < r then f + 1
  else if f % 2 = 0 then f else f + 1

/-- Draw of random.choice(seq); none models the IndexError on an empty
sequence. -/
def choice (l : List α) (g : Rng) : Option (α × Rng) :=
  let (u, g1) := rand01 g
  match l.get? (⌊u * l.length⌋.toNat) with
  | some x => some (x, g1)
  | none => none

/-- Draw of np.random.normal(mean, stdev): modelled as mean + stdev * z with
z the next element of the NumPy stream. -/
def npNormal (mean stdev : ℚ) (np : NpRng) : ℚ × NpRng :=
  (mean + stdev * np.2 np.1, (np.1 + 1, np.2))

/-- Draws of np.random.normal(mean, stdev, n): n consecutive samples. -/
def npNormals (mean stdev : ℚ) : ℕ → NpRng → List ℚ × NpRng
  | 0, np => ([], np)
  | n + 1, np =>
    let (x, np1) := npNormal mean stdev np
    let (xs, np2) := npNormals mean stdev n np1
    (x :: xs, np2)

/-! ## Tools.py -/

/-- Constant Tools.secs_per_day.  The synthesis functions below take the
seconds-per-day scale as a parameter named spd; the program instantiates it
with this constant. -/
def secs_per_day : ℕ := 86400

/-- Tools.get_earliest: index of the first true bit (bitarray.index(True)),
none when the bitmap holds no true bit (the source catches the ValueError of
bitarray.index). -/
def get_earliest : List Bool → Option ℕ
  | [] => none
  | b :: t => if b then some 0 else (get_earliest t).map (· + 1)

/-- Tools.get_latest: reverses the bitmap, finds the earliest true bit of the
reversal at offset off, and returns len - off. -/
def get_latest (bitmap : List Bool) : Option ℕ :=
  match get_earliest bitmap.reverse with
  | some off => some (bitmap.length - off)
  | none => none

/-! ## LoadModelComponents.py -/

/-- Shared evaluation context: the fuel bounding the two unbounded loops of
the source (noise redraw, state-machine walk) and the rational stand-ins for
the float exp and log functions of the decay and growth models. -/
structure SynCtx where
  fuel : ℕ
  rexp : ℚ → ℚ
  rlog : ℚ → ℚ

/-- Sampling grid np.linspace(a, b, n). -/
def linspace (a b : ℚ) (n : ℕ) : List ℚ :=
  if n ≤ 1 then List.replicate n a
  else (List.range n).map (fun i : ℕ => a + (b - a) * (i : ℚ) / ((n : ℚ) - 1))

/-- The five fundamental appliance model component types, each carrying its
numeric parameters with the duration fraction last. -/
inductive LoadComp where
  | onOff (onp dur : ℚ)
  | linear (sta endp dur : ℚ)
  | decay (onp add dec dur : ℚ)
  | growth (bas sca stf dur : ℚ)
  | noise (low mean stdev high dur : ℚ)
  deriving DecidableEq

/-- The duration fraction self.dur of a component. -/
def LoadComp.dur : LoadComp → ℚ
  | .onOff _ d => d
  | .linear _ _ d => d
  | .decay _ _ _ d => d
  | .growth _ _ _ d => d
  | .noise _ _ _ _ d => d

/-- NoiseModel.bound: redraw until the sample falls inside [low, high]; the
source loops without bound, so exhausted fuel returns none. -/
def noiseBound (low mean stdev high : ℚ) : ℕ → ℚ → NpRng → Option (ℚ × NpRng)
  | 0, v, np => if high < v ∨ v < low then none else some (v, np)
  | fuel + 1, v, np =>
    if high < v ∨ v < low then
      let (w, np1) := npNormal mean stdev np
      noiseBound low mean stdev high fuel w np1
    else some (v, np)

/-- List comprehension [self.bound(x) for x in data]. -/
def noiseBoundAll (fuel : ℕ) (low mean stdev high : ℚ) :
    List ℚ → NpRng → Option (List ℚ × NpRng)
  | [], np => some ([], np)
  | x :: xs, np => do
    let (y, np1) ← noiseBound low mean stdev high fuel x np
    let (ys, np2) ← noiseBoundAll fuel low mean stdev high xs np1
    some (y :: ys, np2)

/-- The synthesize method of each component class: produce length samples.
Only the noise model touches the NumPy generator. -/
def LoadComp.synthesize (ctx : SynCtx) : LoadComp → ℕ → NpRng → Option (List ℚ × NpRng)
  | .onOff onp _, n, np => some (linspace onp onp n, np)
  | .linear sta endp _, n, np => some (linspace sta endp n, np)
  | .decay onp add dec _, n, np =>
    some ((linspace 0 ((n : ℚ) - 1) n).map (fun x => onp + (add - onp) * ctx.rexp (-(dec * x))), np)
  | .growth bas sca stf _, n, np =>
    some ((linspace 1 (n : ℚ) n).map (fun x => bas + sca * ctx.rlog (stf * x)), np)
  | .noise low mean stdev high _, n, np =>
    let (data, np1) := npNormals mean stdev n np
    noiseBoundAll ctx.fuel low mean stdev high data np1

/-- Discriminator for the noise component. -/
def LoadComp.isNoise : LoadComp → Bool
  | .noise _ _ _ _ _ => true
  | _ => false

/-! ## ApplianceModel.py -/

/-- The state of one ApplianceModel object: its type name, the usual
duration and component list of the active AMBAL instance, the directory of
candidate instances pick_another_model draws from, the per-run busy bitmap
and the cumulative power array. -/
structure Appliance where
  appliance_type : String
  usual_duration : ℕ
  comps : List LoadComp
  candidates : List (ℕ × List LoadComp)
  busy : List Bool
  total_power : List ℚ

/-- ApplianceModel.pick_another_model: replace the active instance by a
uniformly drawn candidate; none models the IndexError on an empty
directory. -/
def Appliance.pick_another_model (a : Appliance) (g : Rng) : Option (Appliance × Rng) :=
  match choice a.candidates g with
  | some ((ud, cs), g1) => some ({ a with usual_duration := ud, comps := cs }, g1)
  | none => none

/-- The component loop of ApplianceModel.synthesize: scale each fraction to
int(round(c.dur * duration)) samples, skip lengths that are not positive or
exceed one day (the literal 86400 of the source), add the samples into the
cycle array at offset + start_offset, and advance start_offset only for
non-skipped components. -/
def synthComps (ctx : SynCtx) (duration offset : ℕ) :
    List LoadComp → List ℚ → ℕ → NpRng → Option (List ℚ × NpRng)
  | [], entry, _, np => some (entry, np)
  | c :: cs, entry, start, np =>
    let len : ℤ := pyRound (c.dur * duration)
    if len ≤ 0 ∨ 86400 < len then
      synthComps ctx duration offset cs entry start np
    else do
      let (vals, np1) ← c.synthesize ctx len.toNat np
      synthComps ctx duration offset cs (addRange entry (offset + start) vals)
        (start + len.toNat) np1

/-- ApplianceModel.synthesize: render one operation of the appliance at the
given offset and duration; returns the per-cycle power array, the appliance
with updated cumulative power and busy bitmap, and the NumPy state. -/
def Appliance.synthesize (ctx : SynCtx) (a : Appliance) (offset duration : ℕ)
    (np : NpRng) : Option (List ℚ × Appliance × NpRng) := do
  let (entry, np1) ← synthComps ctx duration offset a.comps (zeros a.total_power.length) 0 np
  some (entry,
    { a with total_power := addArr a.total_power entry,
             busy := setRange a.busy offset duration true },
    np1)

/-- An appliance whose active instance and whole candidate directory are
free of noise components. -/
def Appliance.noiseFree (a : Appliance) : Bool :=
  a.comps.all (fun c => !c.isNoise) &&
    a.candidates.all (fun p => p.2.all (fun c => !c.isNoise))

/-! ## Association lists standing in for Python dicts -/

/-- Dictionary read d[k], none for a KeyError. -/
def alistGet [DecidableEq K] : List (K × V) → K → Option V
  | [], _ => none
  | p :: t, k => if p.1 = k then some p.2 else alistGet t k

/-- Dictionary write d[k] = v: replace in place when the key exists,
append otherwise (Python dicts preserve insertion order). -/
def alistSet [DecidableEq K] : List (K × V) → K → V → List (K × V)
  | [], k, v => [(k, v)]
  | p :: t, k, v => if p.1 = k then (k, v) :: t else p :: alistSet t k v

/-! ## ActivityModel.py: the state-machine interpreter -/

/-- One decoded row of the [sequence] section: name, min and max duration,
involves-user flag, must-complete flag, device id, transition probability
and the two successor states. -/
structure MState where
  snm : String
  mn : ℕ
  mx : ℕ
  usr : Bool
  fin : Bool
  devID : ℕ
  pa : ℚ
  sa : ℕ
  sb : ℕ

/-- One parsed activity model.  A state_machine entry none stands for a row
whose stringly-typed decoding raises ValueError at interpretation time.
The appliance_binding dict maps each required appliance type to its bound
ApplianceModel, none until bound. -/
structure ActivityModel where
  activity_type : String
  required_appliances : List String
  appliance_lookup : List (ℕ × String)
  appliance_binding : List (String × Option Appliance)
  state_machine : List (Option MState)

/-- A concrete appliance schedule: the dict offset -> (appliance, runtime),
with the appliance recorded through its binding key. -/
abbrev Sched := List (ℕ × String × ℕ)

/-- The loop body of process_model that the model_varies flag triggers:
dev.pick_another_model() for every bound appliance; an unbound entry would
raise AttributeError. -/
def pickAllModels : List (String × Option Appliance) → Rng →
    Option (List (String × Option Appliance) × Rng)
  | [], g => some ([], g)
  | (t, some a) :: rest, g => do
    let (a1, g1) ← a.pick_another_model g
    let (rest1, g2) ← pickAllModels rest g1
    some ((t, some a1) :: rest1, g2)
  | (_, none) :: _, _ => none

/-- Duration resolution of one state (ActivityModel.process_model): a state
with min = max = 0 and no appliance defaults to a uniform 5 to 10 seconds
(after a warning); with min = max = 0 and an appliance it runs for that
appliance's usual duration; otherwise a uniform integer between the smaller
and the larger of the two bounds is drawn.  The source performs the default
by first overwriting the zero bounds with 5 and 10 and then branching; the
if chain below tests the same three mutually exclusive conditions. -/
def resolveDuration (m : ActivityModel) (mn0 mx0 devID : ℕ) (g : Rng) :
    Option (ℕ × Rng) :=
  if mn0 = 0 ∧ mx0 = 0 ∧ devID ≠ 0 then do
    let t ← alistGet m.appliance_lookup devID
    let ob ← alistGet m.appliance_binding t
    let a ← ob
    some (a.usual_duration, g)
  else if mn0 = 0 ∧ mx0 = 0 ∧ devID = 0 then
    let (v, g1) := randint 5 10 g
    some (v.toNat, g1)
  else
    let (v, g1) := randint ((min mn0 mx0 : ℕ) : ℤ) ((max mn0 mx0 : ℕ) : ℤ) g
    some (v.toNat, g1)

/-- State transition of the interpreter: draw uniform(0,1) and move to
successor a exactly when the draw is below the transition probability. -/
def nextState (pa : ℚ) (sa sb : ℕ) (g : Rng) : ℕ × Rng :=
  let (u, g1) := rand01 g
  (if u < pa then sa else sb, g1)

/-- The while loop of process_model, walking the probabilistic state graph
from state 0 until the current index leaves the state table.  Carries
(remaining fuel, current state, cursor, schedule, first and last user
involvement); returns the tuple of process_model together with the
generator, or none when the walk exhausts its fuel or hits a missing
dictionary key / unbound appliance. -/
def pmLoop (m : ActivityModel) :
    ℕ → ℕ → ℕ → Sched → Option ℕ → ℕ → Rng →
    Option (ℕ × Option Sched × Option ℕ × ℕ × Rng)
  | 0, _, _, _, _, _, _ => none
  | fuel + 1, current, total, sched, umin, umax, g =>
    if h : current < m.state_machine.length then
      match m.state_machine.get ⟨current, h⟩ with
      | none => some (0, none, some 0, 0, g)
      | some st =>
        let umin1 := if umin = none ∧ st.usr then some total else umin
        match resolveDuration m st.mn st.mx st.devID g with
        | none => none
        | some (runtime, g1) =>
          let cont := fun (total2 : ℕ) (sched2 : Sched) (g2 : Rng) =>
            let umax2 := if st.usr then total2 else umax
            let (nxt, g3) := nextState st.pa st.sa st.sb g2
            pmLoop m fuel nxt total2 sched2 umin1 umax2 g3
          if st.devID ≠ 0 then
            match alistGet m.appliance_lookup st.devID with
            | none => none
            | some t =>
              match alistGet m.appliance_binding t with
              | none => none
              | some _ =>
                let sched1 := alistSet sched total (t, runtime)
                if st.fin then
                  cont (total + runtime) sched1 g1
                else
                  let (j, g2) := randint 5 10 g1
                  cont (total + j.toNat) sched1 g2
          else
            cont (total + runtime) sched g1
    else
      some (total, some sched, umin, umax, g)

/-- ActivityModel.process_model: swap appliance models when variation is
requested, then walk the state machine.  Returns the possibly updated
binding together with (total_duration, schedule, user_min_time,
user_max_time). -/
def ActivityModel.process_model (ctx : SynCtx) (m : ActivityModel)
    (model_varies : Bool) (g : Rng) :
    Option (List (String × Option Appliance) × ℕ × Option Sched × Option ℕ × ℕ × Rng) := do
  let (b1, g1) ←
    if model_varies then pickAllModels m.appliance_binding g
    else some (m.appliance_binding, g)
  let (total, sched, umin, umax, g2) ←
    pmLoop { m with appliance_binding := b1 } ctx.fuel 0 0 [] none 0 g1
  some (b1, total, sched, umin, umax, g2)

/-! ## ActivityModel.py: the slot scheduler -/

/-- Event category: activity or device. -/
inductive EvKind where
  | ACT
  | DEV
  deriving DecidableEq

/-- Event transition. -/
inductive EvTrans where
  | START
  | END
  | ON
  | OFF
  deriving DecidableEq

/-- One entry of the events list: offset in seconds since horizon start,
category, source name and transition. -/
structure Event where
  off : ℤ
  kind : EvKind
  name : String
  tr : EvTrans
  deriving DecidableEq

/-- The named-power-array dictionary threaded through synthesis. -/
abbrev Powers := List (String × List ℚ)

/-- The in-place addition powers[k] += v (the key is present at every use
site of the source). -/
def powersAdd (p : Powers) (k : String) (v : List ℚ) : Powers :=
  p.map (fun q => if q.1 = k then (q.1, addArr q.2 v) else q)

/-- The full mutable state touched by ActivityModel.synthesize: the shared
powers dict and events list, the activity's time-of-run bitmap, the user
availability bitmap, the appliance bindings, the accumulating per-activity
power array, the failure and success counters and the two generators.
The committed field is ghost instrumentation recording each committed
window (start, duration) as it is marked busy. -/
structure SchedSt where
  powers : Powers
  events : List Event
  time_of_run : List Bool
  user_available : List Bool
  binding : List (String × Option Appliance)
  activity_power : List ℚ
  failures : ℕ
  successes : ℕ
  g : Rng
  np : NpRng
  committed : List (ℕ × ℕ)

/-- Number of attempts of the activity for one day: for a daily rate of at
least 1, round(rate + uniform(0,1) - 0.5); otherwise a Bernoulli draw of a
single attempt with probability rate. -/
def repsFor (rate : ℚ) (g : Rng) : ℕ × Rng :=
  if 1 ≤ rate then
    let (u, g1) := rand01 g
    ((pyRound (rate + u - 1/2)).toNat, g1)
  else
    let (u, g1) := rand01 g
    (if rate < u then 0 else 1, g1)

/-- The current-day mask: an all-false horizon bitmap with day d set true. -/
def dayFilter (num_days spd d : ℕ) : List Bool :=
  setRange (List.replicate (num_days * spd) false) (d * spd) spd true

/-- The 10 random probes for a start offset: each draws
randint(earliest, latest + 1 - duration) and accepts when the candidate
slice is entirely free and the window stays inside the horizon. -/
def probeLoop (avail : List Bool) (duration horizon : ℕ) (e hi : ℤ) :
    ℕ → Rng → Option ℕ × Rng
  | 0, g => (none, g)
  | att + 1, g =>
    let (s, g1) := randint e hi g
    if sliceAll avail s.toNat duration ∧ s.toNat + duration ≤ horizon then
      (some s.toNat, g1)
    else
      probeLoop avail duration horizon e hi att g1

/-- The fallback left-to-right scan over range(earliest, latest + 1 -
duration), accepting the first fitting start offset. -/
def exhaustiveScan (avail : List Bool) (duration horizon e cnt : ℕ) : Option ℕ :=
  ((List.range cnt).map (e + ·)).find?
    (fun s => sliceAll avail s duration && decide (s + duration ≤ horizon))

/-- The emission loop over the appliance schedule of one committed
instance: per entry a DEVICE ON event, the appliance waveform synthesis
with its accumulations, a DEVICE OFF event, and the running latest-OFF
offset. -/
def runItems (ctx : SynCtx) (aty : String) (s : ℕ) :
    Sched →
    List (String × Option Appliance) × Powers × List Event × List ℚ × NpRng × ℤ →
    Option (List (String × Option Appliance) × Powers × List Event × List ℚ × NpRng × ℤ)
  | [], st => some st
  | (a, t, dur) :: rest, (binding, powers, events, ap, np, fin) => do
    let app ← (alistGet binding t).bind id
    let events1 := events ++ [⟨((s : ℤ) + a), .DEV, app.appliance_type, .ON⟩]
    let (cycle, app1, np1) ← app.synthesize ctx (s + a) dur np
    let ap1 := addArr ap cycle
    let powers1 := powersAdd powers aty cycle
    let off : ℤ := (s : ℤ) + a + dur - 1
    let events2 := events1 ++ [⟨off, .DEV, app.appliance_type, .OFF⟩]
    let fin1 := if fin < off then off else fin
    runItems ctx aty s rest (alistSet binding t (some app1), powers1, events2, ap1, np1, fin1)

/-- The event emission and accumulation block for one successfully placed
activity instance: ACTIVITY START, the appliance schedule, ACTIVITY END at
the latest appliance OFF offset (0 when the schedule is empty).  The final
component of the result is that END offset. -/
def runInstance (ctx : SynCtx) (aty : String) (s : ℕ) (sched : Sched)
    (binding : List (String × Option Appliance)) (powers : Powers)
    (events : List Event) (ap : List ℚ) (np : NpRng) :
    Option (List (String × Option Appliance) × Powers × List Event × List ℚ × NpRng × ℤ) := do
  let events0 := events ++ [⟨(s : ℤ), .ACT, aty, .START⟩]
  let (b1, p1, e1, ap1, np1, fin) ← runItems ctx aty s sched (binding, powers, events0, ap, np, 0)
  some (b1, p1, e1 ++ [⟨fin, .ACT, aty, .END⟩], ap1, np1, fin)

/-- The legal placement window of one attempt: the intersection of the
activity's legal-time bitmap with the current-day mask, further intersected
with the user's availability exactly when the attempt involves the user. -/
def availabilityOf (umin : Option ℕ) (ua tor df : List Bool) : List Bool :=
  if umin.isSome then bitAnd (bitAnd ua tor) df else bitAnd tor df

/-- One attempt of the per-day scheduling loop (the body of the for r in
range(reps) loop).  Returns the updated state and a flag that is true when
the source breaks out of the remaining attempts of the day. -/
def repStep (ctx : SynCtx) (m : ActivityModel) (num_days spd : ℕ) (vary : Bool)
    (reps : ℕ) (day_filter : List Bool) (st : SchedSt) : Option (SchedSt × Bool) :=
  match ActivityModel.process_model ctx { m with appliance_binding := st.binding } vary st.g with
  | none => none
  | some (b1, duration, schedOpt, umin, umax, g1) =>
    match schedOpt with
    | none => some ({ st with binding := b1, g := g1, failures := st.failures + reps }, true)
    | some sched =>
      let avail := availabilityOf umin st.user_available st.time_of_run day_filter
      let earlyFail : SchedSt × Bool :=
        ({ st with
            binding := b1,
            g := g1,
            failures := st.failures +
              (if 0 < bcount (bitAnd st.time_of_run day_filter) then 1 else 0) }, true)
      match get_earliest avail, get_latest avail with
      | some e, some l =>
        if (e : ℤ) > (l : ℤ) + 1 - duration then some earlyFail
        else
          let horizon := num_days * spd
          let (probeRes, g2) := probeLoop avail duration horizon e ((l : ℤ) + 1 - duration) 10 g1
          let found := match probeRes with
            | some s => some s
            | none => exhaustiveScan avail duration horizon e (((l : ℤ) + 1 - duration - e).toNat)
          match found with
          | none => some ({ st with binding := b1, g := g2, failures := st.failures + 1 }, true)
          | some s =>
            let ua1 := match umin with
              | some ue =>
                if 0 < umax then setRange st.user_available (s + ue) (umax - ue) false
                else st.user_available
              | none => st.user_available
            let tor1 := setRange st.time_of_run s duration false
            match runInstance ctx m.activity_type s sched b1 st.powers st.events
                st.activity_power st.np with
            | none => none
            | some (b2, p2, e2, ap2, np2, _) =>
              some ({ powers := p2,
                      events := e2,
                      time_of_run := tor1,
                      user_available := ua1,
                      binding := b2,
                      activity_power := ap2,
                      failures := st.failures,
                      successes := st.successes + 1,
                      g := g2,
                      np := np2,
                      committed := (s, duration) :: st.committed }, false)
      | _, _ => some earlyFail

/-- The for r in range(reps) loop, honouring the break flag. -/
def repsLoop (ctx : SynCtx) (m : ActivityModel) (num_days spd : ℕ) (vary : Bool)
    (reps : ℕ) (day_filter : List Bool) : ℕ → SchedSt → Option SchedSt
  | 0, st => some st
  | r + 1, st =>
    match repStep ctx m num_days spd vary reps day_filter st with
    | none => none
    | some (st1, brk) => if brk then some st1 else repsLoop ctx m num_days spd vary reps day_filter r st1

/-- One day of the scheduling loop: draw the number of attempts, build the
current-day mask and run the attempts. -/
def dayStep (ctx : SynCtx) (m : ActivityModel) (num_days spd : ℕ) (vary : Bool)
    (rate : ℚ) (d : ℕ) (st : SchedSt) : Option SchedSt :=
  let (reps, g1) := repsFor rate st.g
  let df := dayFilter num_days spd d
  repsLoop ctx m num_days spd vary reps df reps { st with g := g1 }

/-- The for d in range(num_days) loop. -/
def dayLoop (ctx : SynCtx) (m : ActivityModel) (num_days spd : ℕ) (vary : Bool)
    (rate : ℚ) : List ℕ → SchedSt → Option SchedSt
  | [], st => some st
  | d :: ds, st => (dayStep ctx m num_days spd vary rate d st).bind
      (dayLoop ctx m num_days spd vary rate ds)

/-- ActivityModel.synthesize: the bindings guard followed by the per-day
scheduling loop.  With an unsatisfied binding the call warns and returns the
untouched state together with the all-zero activity power array. -/
def ActivityModel.synthesize (ctx : SynCtx) (m : ActivityModel) (powers : Powers)
    (events : List Event) (num_days : ℕ) (runs_per_day : ℚ)
    (time_of_run user_available : List Bool) (spd : ℕ) (vary : Bool)
    (g : Rng) (np : NpRng) : Option SchedSt :=
  if m.appliance_binding.any (fun p => p.2.isNone) then
    some { powers := powers,
           events := events,
           time_of_run := time_of_run,
           user_available := user_available,
           binding := m.appliance_binding,
           activity_power := zeros (num_days * spd),
           failures := 0,
           successes := 0,
           g := g,
           np := np,
           committed := [] }
  else
    let powers1 := if (alistGet powers m.activity_type).isSome then powers
      else alistSet powers m.activity_type (zeros (num_days * spd))
    dayLoop ctx m num_days spd vary runs_per_day (List.range num_days)
      { powers := powers1,
        events := events,
        time_of_run := time_of_run,
        user_available := user_available,
        binding := m.appliance_binding,
        activity_power := zeros (num_days * spd),
        failures := 0,
        successes := 0,
        g := g,
        np := np,
        committed := [] }

/-- Replace only the NumPy generator component of a scheduler state. -/
def SchedSt.setNp (st : SchedSt) (np : NpRng) : SchedSt :=
  { st with np := np }

/-- Every appliance bound in the dict is free of noise components. -/
def bindingNoiseFree (b : List (String × Option Appliance)) : Bool :=
  b.all (fun p => match p.2 with
    | some a => a.noiseFree
    | none => true)

/-! ## UserModel.py and the user loop of antgen.py -/

/-- One activity entry of a user: its configuration name, the parsed model,
the configured daily run rate and the legal-time bitmap. -/
structure UserActivity where
  aname : String
  model : ActivityModel
  runs_per_day : ℚ
  possible_runtimes : List Bool

/-- One parsed user model. -/
structure UserModel where
  uname : String
  availability : List Bool
  days : ℕ
  activities : List UserActivity

/-- The random sort keys of sorted(..., key=lambda x: random.random()). -/
def shuffleDraws : ℕ → Rng → List ℚ × Rng
  | 0, g => ([], g)
  | n + 1, g =>
    let (u, g1) := rand01 g
    let (us, g2) := shuffleDraws n g1
    (u :: us, g2)

/-- Shuffling the activity list by sorting under freshly drawn keys. -/
def shuffleByKeys (l : List α) (g : Rng) : List α × Rng :=
  let (ks, g1) := shuffleDraws l.length g
  ((List.insertionSort (fun a b : α × ℚ => a.2 ≤ b.2) (l.zip ks)).map (·.1), g1)

/-- The activity loop of UserModel.synthesize: run each activity and add its
returned power array to the user's entry and to the total entry. -/
def userActLoop (ctx : SynCtx) (uname : String) (days spd : ℕ) (vary : Bool) :
    List UserActivity → Powers → List Event → List Bool → Rng → NpRng →
    Option (Powers × List Event × List Bool × Rng × NpRng)
  | [], powers, events, avail, g, np => some (powers, events, avail, g, np)
  | a :: rest, powers, events, avail, g, np =>
    match ActivityModel.synthesize ctx a.model powers events days a.runs_per_day
        a.possible_runtimes avail spd vary g np with
    | none => none
    | some r =>
      let powers1 := powersAdd (powersAdd r.powers uname r.activity_power)
        "total" r.activity_power
      userActLoop ctx uname days spd vary rest powers1 r.events r.user_available r.g r.np

/-- UserModel.synthesize: create the user's all-zero power entry, shuffle
the activities, and run them in the shuffled order. -/
def UserModel.synthesize (ctx : SynCtx) (u : UserModel) (all_powers : Powers)
    (all_events : List Event) (spd : ℕ) (vary : Bool) (g : Rng) (np : NpRng) :
    Option (Powers × List Event × List Bool × Rng × NpRng) :=
  let powers0 := alistSet all_powers u.uname (zeros (u.days * spd))
  let (acts, g1) := shuffleByKeys u.activities g
  userActLoop ctx u.uname u.days spd vary acts powers0 all_events u.availability g1 np

/-- The user loop of antgen.main. -/
def runUsers (ctx : SynCtx) (spd : ℕ) (vary : Bool) :
    List UserModel → Powers → List Event → Rng → NpRng →
    Option (Powers × List Event × Rng × NpRng)
  | [], powers, events, g, np => some (powers, events, g, np)
  | u :: rest, powers, events, g, np =>
    match u.synthesize ctx powers events spd vary g np with
    | some (p1, e1, _, g1, np1) => runUsers ctx spd vary rest p1 e1 g1 np1
    | none => none

/-- The synthesis phase of antgen.main: the powers dict starts with the
all-zero total entry and an empty events list; users are processed in
order. -/
def mainSynthesize (ctx : SynCtx) (days spd : ℕ) (vary : Bool)
    (users : List UserModel) (g : Rng) (np : NpRng) :
    Option (Powers × List Event × Rng × NpRng) :=
  runUsers ctx spd vary users [("total", zeros (days * spd))] [] g np

/-! ## Notions used in the statements -/

/-- Two half-open windows (start, duration) do not overlap: one is empty,
or one ends no later than the other starts. -/
def windowsDisjoint (w1 w2 : ℕ × ℕ) : Prop :=
  w1.2 = 0 ∨ w2.2 = 0 ∨ w1.1 + w1.2 ≤ w2.1 ∨ w2.1 + w2.2 ≤ w1.1

instance (w1 w2 : ℕ × ℕ) : Decidable (windowsDisjoint w1 w2) := by
  unfold windowsDisjoint
  infer_instance

/-- Every appliance bound in the dict carries a cumulative power array of
the horizon length. -/
def bindingLenOK (horizon : ℕ) (b : List (String × Option Appliance)) : Bool :=
  b.all (fun p => match p.2 with
    | some a => a.total_power.length = horizon
    | none => true)

/-- The elementwise sum of the power entries of the given names. -/
def userPowerSum (p : Powers) (names : List String) (horizon : ℕ) : List ℚ :=
  names.foldl (fun acc n => addArr acc ((alistGet p n).getD (zeros horizon))) (zeros horizon)

/-- Well-formedness of a user model for a run of the given scale: the
buffer day count matches and all bound appliances carry horizon-length
arrays. -/
def UserWF (days spd : ℕ) (u : UserModel) : Prop :=
  u.days = days ∧
    ∀ a ∈ u.activities, bindingLenOK (days * spd) a.model.appliance_binding = true

instance (days spd : ℕ) (u : UserModel) : Decidable (UserWF days spd u) := by
  unfold UserWF
  infer_instance

/-- The DEVICE OFF offsets of a schedule whose instance starts at s. -/
def offOffsets (s : ℕ) (sched : Sched) : List ℤ :=
  sched.map (fun e => (s : ℤ) + e.1 + e.2.2 - 1)

/-- Whether some committed window covers second i. -/
def coveredBy (committed : List (ℕ × ℕ)) (i : ℕ) : Bool :=
  committed.any (fun w => decide (w.1 ≤ i) && decide (i < w.1 + w.2))

/-- The scheduling invariant of one activity: the time-of-run bitmap keeps
the horizon length, the committed windows are pairwise disjoint, each was
chosen inside the horizon where the initial bitmap tor0 was entirely free,
and the current bitmap is exactly the initial one with the committed
windows cleared. -/
def C3Core (horizon : ℕ) (tor0 tor : List Bool) (committed : List (ℕ × ℕ)) : Prop :=
  tor.length = horizon ∧
  List.Pairwise windowsDisjoint committed ∧
  (∀ w ∈ committed, sliceAll tor0 w.1 w.2 = true ∧ w.1 + w.2 ≤ horizon) ∧
  (∀ i, tor.getD i false = (tor0.getD i false && !coveredBy committed i))

/-! ## Concrete instances for the example runs -/

/-- Evaluation context for the example runs. -/
def exCtx : SynCtx := ⟨100, fun _ => 0, fun _ => 0⟩

/-- A stream whose every draw is one half. -/
def halfStream : ℕ → ℚ := fun _ => 1/2

/-- A stream of zeros. -/
def zeroStream : ℕ → ℚ := fun _ => 0

/-- A stream of ones. -/
def oneStream : ℕ → ℚ := fun _ => 1

/-- A default scheduler state. -/
def dummySt : SchedSt :=
  ⟨[], [], [], [], [], [], 0, 0, (0, halfStream), (0, halfStream), []⟩

/-- A two-second 60 watt on/off appliance over a ten-second horizon. -/
def c3app : Appliance :=
  ⟨"dev", 2, [LoadComp.onOff 60 1], [(2, [LoadComp.onOff 60 1])],
   List.replicate 10 false, zeros 10⟩

/-- A one-state activity running c3app for exactly two seconds. -/
def c3act : ActivityModel :=
  ⟨"act", ["dev"], [(0, "None"), (1, "dev")], [("dev", some c3app)],
   [some ⟨"s0", 2, 2, false, true, 1, 1, 5, 5⟩]⟩

/-- A one-day run of c3act at rate 1 on a fully free ten-second horizon. -/
def c3run : Option SchedSt :=
  ActivityModel.synthesize exCtx c3act [] [] 1 1 (List.replicate 10 true)
    (List.replicate 10 true) 10 false (0, halfStream) (0, halfStream)

/-- An appliance whose usual duration is zero. -/
def c4app : Appliance :=
  ⟨"dev", 0, [LoadComp.onOff 60 1], [(0, [LoadComp.onOff 60 1])],
   List.replicate 10 false, zeros 10⟩

/-- An activity whose single state defers to the zero usual duration. -/
def c4act : ActivityModel :=
  ⟨"act", ["dev"], [(0, "None"), (1, "dev")], [("dev", some c4app)],
   [some ⟨"s0", 0, 0, false, true, 1, 1, 5, 5⟩]⟩

/-- A run scheduling a zero-duration instance of c4act. -/
def c4run : Option SchedSt :=
  ActivityModel.synthesize exCtx c4act [] [] 1 1 (List.replicate 10 true)
    (List.replicate 10 true) 10 false (0, halfStream) (0, halfStream)

/-- The activity of c3act with its appliance requirement left unbound. -/
def c6act : ActivityModel :=
  ⟨"act", ["dev"], [(0, "None"), (1, "dev")], [("dev", none)],
   [some ⟨"s0", 2, 2, false, true, 1, 1, 5, 5⟩]⟩

/-- A run of c3act on a day whose legal-time bitmap is entirely false. -/
def c7run : Option SchedSt :=
  ActivityModel.synthesize exCtx c3act [] [] 1 1 (List.replicate 10 false)
    (List.replicate 10 true) 10 false (0, halfStream) (0, halfStream)

/-- The scheduler state entering the single attempt of the c7run day. -/
def c7st : SchedSt :=
  { powers := alistSet [] "act" (zeros 10),
    events := [],
    time_of_run := List.replicate 10 false,
    user_available := List.replicate 10 true,
    binding := c3act.appliance_binding,
    activity_power := zeros 10,
    failures := 0,
    successes := 0,
    g := (1, halfStream),
    np := (0, halfStream),
    committed := [] }

/-- A single-component noise appliance over a three-second horizon. -/
def c1app : Appliance :=
  ⟨"dev", 1, [LoadComp.noise 0 0 1 10 1], [(1, [LoadComp.noise 0 0 1 10 1])],
   List.replicate 3 false, zeros 3⟩

/-- A user whose name collides with the activity type of its activity. -/
def c10user : UserModel :=
  ⟨"act", List.replicate 10 true, 1, [⟨"act", c3act, 1, List.replicate 10 true⟩]⟩

/-- The one-user run of c10user. -/
def c10run : Option (Powers × List Event × Rng × NpRng) :=
  mainSynthesize exCtx 1 10 false [c10user] (0, halfStream) (0, halfStream)

/-- A user named u running activity act: no name collision. -/
def c10wUser : UserModel :=
  ⟨"u", List.replicate 10 true, 1, [⟨"act", c3act, 1, List.replicate 10 true⟩]⟩

/-- The one-user run of c10wUser. -/
def c10wrun : Option (Powers × List Event × Rng × NpRng) :=
  mainSynthesize exCtx 1 10 false [c10wUser] (0, halfStream) (0, halfStream)

/-! ## Theorems -/

@[simp] theorem setRangeAux_nil (v : Bool) (s n : ℕ) : setRangeAux v [] s n = [] := rfl

@[simp] theorem length_setRangeAux (v : Bool) :
    ∀ (l : List Bool) (s n : ℕ), (setRangeAux v l s n).length = l.length := by
  intro l
  induction l with
  | nil => intro s n; rfl
  | cons b t ih =>
    intro s n
    cases s with
    | zero => cases n with
      | zero => rfl
      | succ n => simp [setRangeAux, ih]
    | succ s => simp [setRangeAux, ih]

@[simp] theorem length_setRange (l : List Bool) (s n : ℕ) (v : Bool) :
    (setRange l s n v).length = l.length := length_setRangeAux v l s n

theorem getD_setRangeAux (v : Bool) :
    ∀ (l : List Bool) (s n i : ℕ),
      (setRangeAux v l s n).getD i false =
        if s ≤ i ∧ i < s + n ∧ i < l.length then v else l.getD i false := by
  intro l
  induction l with
  | nil => intro s n i; simp
  | cons b t ih =>
    intro s n i
    cases s with
    | zero =>
      cases n with
      | zero => simp [setRangeAux]
      | succ n =>
        cases i with
        | zero => simp [setRangeAux]
        | succ i =>
          simp only [setRangeAux, List.getD_cons_succ, ih, List.length_cons]
          congr 1
          simp only [eq_iff_iff]
          constructor
          · rintro ⟨-, h2, h3⟩
            exact ⟨Nat.zero_le _, by omega, by omega⟩
          · rintro ⟨-, h2, h3⟩
            exact ⟨Nat.zero_le _, by omega, by omega⟩
    | succ s =>
      cases i with
      | zero => simp [setRangeAux]
      | succ i =>
        simp only [setRangeAux, List.getD_cons_succ, ih, List.length_cons]
        congr 1
        simp only [eq_iff_iff]
        constructor
        · rintro ⟨h1, h2, h3⟩
          exact ⟨by omega, by omega, by omega⟩
        · rintro ⟨h1, h2, h3⟩
          exact ⟨by omega, by omega, by omega⟩

theorem getD_setRange (l : List Bool) (s n i : ℕ) (v : Bool) :
    (setRange l s n v).getD i false =
      if s ≤ i ∧ i < s + n ∧ i < l.length then v else l.getD i false :=
  getD_setRangeAux v l s n i

theorem sliceAll_getD {l : List Bool} {s n : ℕ} (h : sliceAll l s n = true)
    (hb : s + n ≤ l.length) : ∀ i, s ≤ i → i < s + n → l.getD i false = true := by
  intro i h1 h2
  have hil : i < l.length := by omega
  have hlen : ((l.drop s).take n).length = n := by
    rw [List.length_take, List.length_drop]; omega
  have hidx : i - s < ((l.drop s).take n).length := by omega
  have hmem := List.getElem_mem hidx
  have hval := List.all_eq_true.mp h _ hmem
  simp only [id_eq] at hval
  have hdl : i - s < (l.drop s).length := by rw [List.length_drop]; omega
  have hsl : s + (i - s) < l.length := by omega
  have e1 : ((l.drop s).take n)[i - s] = (l.drop s)[i - s] :=
    List.getElem_take _
  have e2 : (l.drop s)[i - s] = l[s + (i - s)] :=
    List.getElem_drop _
  have e3 : l[s + (i - s)] = l[i] := by congr 1; omega
  rw [List.getD_eq_getElem?_getD, List.getElem?_eq_getElem hil]
  rw [e1, e2, e3] at hval
  simp only [Option.getD_some]
  exact hval

theorem getD_bitAnd (a b : List Bool) (i : ℕ) (ha : i < a.length) (hb : i < b.length) :
    (bitAnd a b).getD i false = (a.getD i false && b.getD i false) := by
  unfold bitAnd
  have hlen : i < (List.zipWith and a b).length := by
    rw [List.length_zipWith]; omega
  rw [List.getD_eq_getElem?_getD, List.getElem?_eq_getElem hlen,
      List.getD_eq_getElem?_getD, List.getElem?_eq_getElem ha,
      List.getD_eq_getElem?_getD, List.getElem?_eq_getElem hb]
  simp [List.getElem_zipWith]

@[simp] theorem length_bitAnd (a b : List Bool) :
    (bitAnd a b).length = min a.length b.length := by
  simp [bitAnd]

theorem rand01_nonneg (g : Rng) : 0 ≤ (rand01 g).1 := Int.fract_nonneg _

theorem rand01_lt_one (g : Rng) : (rand01 g).1 < 1 := Int.fract_lt_one _

theorem randint_fst (a b : ℤ) (g : Rng) :
    (randint a b g).1 = a + ⌊(rand01 g).1 * ((b : ℚ) + 1 - a)⌋ := rfl

theorem randint_mem {a b : ℤ} (h : a ≤ b) (g : Rng) :
    a ≤ (randint a b g).1 ∧ (randint a b g).1 ≤ b := by
  rw [randint_fst]
  have h0 : (0:ℚ) ≤ (rand01 g).1 := rand01_nonneg g
  have h1 : (rand01 g).1 < 1 := rand01_lt_one g
  have hn : (0:ℚ) < (b:ℚ) + 1 - a := by
    have : (a:ℚ) ≤ b := by exact_mod_cast h
    linarith
  constructor
  · have hpos : (0:ℚ) ≤ (rand01 g).1 * ((b:ℚ) + 1 - a) := mul_nonneg h0 (le_of_lt hn)
    have hfl : (0:ℤ) ≤ ⌊(rand01 g).1 * ((b:ℚ) + 1 - a)⌋ := by
      apply Int.le_floor.mpr
      simpa using hpos
    omega
  · have hlt : (rand01 g).1 * ((b:ℚ) + 1 - a) < (b:ℚ) + 1 - a := by
      nlinarith
    have hfl : ⌊(rand01 g).1 * ((b:ℚ) + 1 - a)⌋ < b + 1 - a := by
      apply Int.floor_lt.mpr
      have hcast : (((b + 1 - a : ℤ)) : ℚ) = (b:ℚ) + 1 - a := by push_cast; ring
      rw [hcast]
      exact hlt
    omega

theorem get_earliest_none_iff : ∀ (b : List Bool),
    get_earliest b = none ↔ ∀ x ∈ b, x = false := by
  intro b
  induction b with
  | nil => simp [get_earliest]
  | cons x t ih =>
    cases x with
    | true => simp [get_earliest]
    | false =>
      simp only [get_earliest, Bool.false_eq_true, if_false, Option.map_eq_none',
        List.mem_cons]
      rw [ih]
      constructor
      · intro h y hy
        rcases hy with rfl | hy
        · rfl
        · exact h y hy
      · intro h y hy
        exact h y (Or.inr hy)

theorem get_earliest_some : ∀ (b : List Bool) (i : ℕ), get_earliest b = some i →
    i < b.length ∧ b.getD i false = true ∧ ∀ j < i, b.getD j false = false := by
  intro b
  induction b with
  | nil => intro i h; simp [get_earliest] at h
  | cons x t ih =>
    intro i h
    cases x with
    | true =>
      simp only [get_earliest, if_true, Option.some_inj] at h
      subst h
      exact ⟨by simp, by simp, by omega⟩
    | false =>
      simp only [get_earliest, Bool.false_eq_true, if_false, Option.map_eq_some'] at h
      obtain ⟨k, hk, rfl⟩ := h
      obtain ⟨hlen, hget, hmin⟩ := ih k hk
      refine ⟨by simpa using hlen, by simpa using hget, ?_⟩
      intro j hj
      cases j with
      | zero => simp
      | succ j => simpa using hmin j (by omega)

theorem get_latest_none_iff (b : List Bool) :
    get_latest b = none ↔ ∀ x ∈ b, x = false := by
  unfold get_latest
  rcases h : get_earliest b.reverse with _ | off
  · rw [get_earliest_none_iff] at h
    constructor
    · intro _ x hx
      exact h x (List.mem_reverse.mpr hx)
    · intro _; rfl
  · constructor
    · intro hc; exact absurd hc (by simp)
    · intro hall
      exfalso
      have hnone : get_earliest b.reverse = none := by
        rw [get_earliest_none_iff]
        intro x hx
        exact hall x (List.mem_reverse.mp hx)
      rw [h] at hnone
      exact absurd hnone (by simp)

theorem get_latest_some (b : List Bool) (k : ℕ) (h : get_latest b = some k) :
    1 ≤ k ∧ k ≤ b.length ∧ b.getD (k - 1) false = true ∧
      ∀ j, k ≤ j → b.getD j false = false := by
  unfold get_latest at h
  rcases he : get_earliest b.reverse with _ | off
  · rw [he] at h; exact absurd h (by simp)
  · rw [he] at h
    simp only [Option.some_inj] at h
    obtain ⟨hlen, hget, hmin⟩ := get_earliest_some b.reverse off he
    rw [List.length_reverse] at hlen
    have hrev : ∀ m (hm : m < b.length),
        b.reverse.getD m false = b.getD (b.length - 1 - m) false := by
      intro m hm
      have hm' : m < b.reverse.length := by simpa using hm
      rw [List.getD_eq_getElem?_getD, List.getElem?_eq_getElem hm',
          List.getElem_reverse,
          List.getD_eq_getElem?_getD, List.getElem?_eq_getElem (by omega : b.length - 1 - m < b.length)]
    subst h
    refine ⟨by omega, by omega, ?_, ?_⟩
    · have := hrev off hlen
      rw [this] at hget
      have heq : b.length - 1 - off = b.length - off - 1 := by omega
      rw [heq] at hget
      exact hget
    · intro j hj
      by_cases hjb : j < b.length
      · have hrj : b.length - 1 - j < off := by omega
        have hrj' : b.length - 1 - j < b.reverse.length := by simp; omega
        have := hmin (b.length - 1 - j) hrj
        have h2 := hrev (b.length - 1 - j) (by omega)
        rw [h2] at this
        have heq : b.length - 1 - (b.length - 1 - j) = j := by omega
        rw [heq] at this
        exact this
      · rw [List.getD_eq_getElem?_getD, List.getElem?_eq_none (by omega)]
        rfl

/-! ## Further array lemmas -/

@[simp] theorem length_addRange : ∀ (l : List ℚ) (s : ℕ) (vals : List ℚ),
    (addRange l s vals).length = l.length := by
  intro l
  induction l with
  | nil => intro s vals; rfl
  | cons x t ih =>
    intro s vals
    cases s with
    | zero =>
      cases vals with
      | nil => rfl
      | cons v vs => simp [addRange, ih]
    | succ s => simp [addRange, ih]

theorem getD_addRange : ∀ (l : List ℚ) (s : ℕ) (vals : List ℚ) (i : ℕ),
    (addRange l s vals).getD i 0 =
      l.getD i 0 + (if s ≤ i ∧ i < s + vals.length ∧ i < l.length
                    then vals.getD (i - s) 0 else 0) := by
  intro l
  induction l with
  | nil => intro s vals i; simp [addRange]
  | cons x t ih =>
    intro s vals i
    cases s with
    | zero =>
      cases vals with
      | nil => simp [addRange]
      | cons v vs =>
        cases i with
        | zero => simp [addRange]
        | succ i =>
          simp only [addRange, List.getD_cons_succ, ih, List.length_cons,
            Nat.sub_zero]
          congr 2
          simp only [eq_iff_iff]
          constructor
          · rintro ⟨-, h2, h3⟩; exact ⟨Nat.zero_le _, by omega, by omega⟩
          · rintro ⟨-, h2, h3⟩; exact ⟨Nat.zero_le _, by omega, by omega⟩
    | succ s =>
      cases i with
      | zero => simp [addRange]
      | succ i =>
        simp only [addRange, List.getD_cons_succ, ih, List.length_cons,
          Nat.succ_sub_succ]
        congr 2
        simp only [eq_iff_iff]
        constructor
        · rintro ⟨h1, h2, h3⟩; exact ⟨by omega, by omega, by omega⟩
        · rintro ⟨h1, h2, h3⟩; exact ⟨by omega, by omega, by omega⟩

@[simp] theorem length_addArr (a b : List ℚ) :
    (addArr a b).length = min a.length b.length := by
  simp [addArr]

theorem getD_addArr (a b : List ℚ) (i : ℕ) (ha : i < a.length) (hb : i < b.length) :
    (addArr a b).getD i 0 = a.getD i 0 + b.getD i 0 := by
  unfold addArr
  have hlen : i < (List.zipWith (· + ·) a b).length := by
    rw [List.length_zipWith]; omega
  rw [List.getD_eq_getElem?_getD, List.getElem?_eq_getElem hlen,
      List.getD_eq_getElem?_getD, List.getElem?_eq_getElem ha,
      List.getD_eq_getElem?_getD, List.getElem?_eq_getElem hb]
  simp [List.getElem_zipWith]

@[simp] theorem length_zeros (n : ℕ) : (zeros n).length = n := by simp [zeros]

theorem getD_zeros (n i : ℕ) : (zeros n).getD i 0 = 0 := by
  unfold zeros
  by_cases h : i < n
  · rw [List.getD_eq_getElem?_getD, List.getElem?_eq_getElem (by simpa using h)]
    simp
  · rw [List.getD_eq_getElem?_getD, List.getElem?_eq_none (by simpa using h)]
    rfl

theorem pyRound_intCast (k : ℤ) : pyRound (k : ℚ) = k := by
  unfold pyRound
  simp

theorem pyRound_natCast (n : ℕ) : pyRound (n : ℚ) = n := by
  have := pyRound_intCast (n : ℤ)
  simpa using this

@[simp] theorem length_linspace (a b : ℚ) (n : ℕ) : (linspace a b n).length = n := by
  unfold linspace
  by_cases h : n ≤ 1
  · simp [h]
  · rw [if_neg h, List.length_map, List.length_range]

theorem linspace_const (a : ℚ) (n : ℕ) : linspace a a n = List.replicate n a := by
  unfold linspace
  by_cases h : n ≤ 1
  · simp [h]
  · simp only [h, if_false]
    rw [List.eq_replicate_iff]
    refine ⟨by rw [List.length_map, List.length_range], ?_⟩
    intro x hx
    simp only [List.mem_map] at hx
    obtain ⟨i, -, rfl⟩ := hx
    ring

theorem compSynthesize_np (ctx : SynCtx) (c : LoadComp) (n : ℕ)
    (h : c.isNoise = false) (np np2 : NpRng) :
    c.synthesize ctx n np = (c.synthesize ctx n np2).map (fun p => (p.1, np)) := by
  cases c <;> simp_all [LoadComp.synthesize, LoadComp.isNoise]

theorem synthComps_np (ctx : SynCtx) (duration offset : ℕ) :
    ∀ (cs : List LoadComp) (entry : List ℚ) (start : ℕ) (np np2 : NpRng),
      cs.all (fun c => !c.isNoise) = true →
      synthComps ctx duration offset cs entry start np =
        (synthComps ctx duration offset cs entry start np2).map (fun p => (p.1, np)) := by
  intro cs
  induction cs with
  | nil => intro entry start np np2 h; rfl
  | cons c t ih =>
    intro entry start np np2 h
    simp only [List.all_cons, Bool.and_eq_true, Bool.not_eq_true'] at h
    obtain ⟨hc, ht⟩ := h
    unfold synthComps
    by_cases hskip : (pyRound (c.dur * duration) ≤ 0 ∨ 86400 < pyRound (c.dur * duration))
    · simp only [if_pos hskip]
      exact ih entry start np np2 (by simpa using ht)
    · simp only [if_neg hskip]
      rw [compSynthesize_np ctx c _ hc np np2]
      rcases hs : c.synthesize ctx (pyRound (c.dur * duration)).toNat np2 with _ | p
      · simp
      · simp only [Option.map_some', Option.bind_some, Option.bind_eq_bind]
        exact ih _ _ np p.2 (by simpa using ht)

theorem Appliance.synthesize_np (ctx : SynCtx) (a : Appliance) (offset duration : ℕ)
    (h : a.comps.all (fun c => !c.isNoise) = true) (np np2 : NpRng) :
    a.synthesize ctx offset duration np =
      (a.synthesize ctx offset duration np2).map (fun p => (p.1, p.2.1, np)) := by
  unfold Appliance.synthesize
  rw [synthComps_np ctx duration offset a.comps _ 0 np np2 h]
  rcases hs : synthComps ctx duration offset a.comps (zeros a.total_power.length) 0 np2 with _ | p
  · simp
  · simp

theorem alistGet_set [DecidableEq K] :
    ∀ (l : List (K × V)) (k : K) (v : V), alistGet (alistSet l k v) k = some v := by
  intro l
  induction l with
  | nil => intro k v; simp [alistGet, alistSet]
  | cons x t ih =>
    intro k v
    by_cases hx : x.1 = k
    · simp [alistSet, alistGet, hx]
    · simp [alistSet, alistGet, hx, ih]

theorem alistGet_set_ne [DecidableEq K] :
    ∀ (l : List (K × V)) (k k2 : K) (v : V), k2 ≠ k →
      alistGet (alistSet l k v) k2 = alistGet l k2 := by
  intro l
  induction l with
  | nil =>
    intro k k2 v h
    simp only [alistSet, alistGet, if_neg (fun hc : k = k2 => h hc.symm)]
  | cons x t ih =>
    intro k k2 v h
    by_cases hx : x.1 = k
    · simp only [alistSet, if_pos hx]
      simp only [alistGet, if_neg (fun hc : k = k2 => h hc.symm),
        if_neg (fun hc : x.1 = k2 => h ((hx ▸ hc : k = k2)).symm)]
    · simp only [alistSet, if_neg hx, alistGet]
      by_cases hx2 : x.1 = k2
      · simp [hx2]
      · simp [hx2, ih k k2 v h]

/-! ## C2: earliest and latest bit of a bitmap -/

/-- C2 counterexample: on the bitmap of length 10 whose true bits are
exactly the indices 3, 4 and 5, get_latest returns 6, not the claimed
index 5 of the last true bit. -/
theorem c2_latest_counterexample :
    get_latest [false, false, false, true, true, true, false, false, false, false] = some 6 ∧
      get_latest [false, false, false, true, true, true, false, false, false, false] ≠ some 5 := by
  constructor
  · decide
  · decide

/-- C2 amended: get_earliest returns the index of the first true bit, or
none on an all-false bitmap; get_latest returns one plus the index of the
last true bit (the exclusive end of the true range), or none on an
all-false bitmap.  On the example bitmap of length 10 with true bits at
indices 3, 4 and 5 this gives Earliest 3 and Latest 6. -/
theorem c2_earliest_latest :
    (∀ b : List Bool, (get_earliest b = none ↔ ∀ x ∈ b, x = false)) ∧
    (∀ (b : List Bool) (i : ℕ), get_earliest b = some i →
      i < b.length ∧ b.getD i false = true ∧ ∀ j < i, b.getD j false = false) ∧
    (∀ b : List Bool, (get_latest b = none ↔ ∀ x ∈ b, x = false)) ∧
    (∀ (b : List Bool) (k : ℕ), get_latest b = some k →
      1 ≤ k ∧ k ≤ b.length ∧ b.getD (k - 1) false = true ∧
        ∀ j, k ≤ j → b.getD j false = false) ∧
    get_earliest (List.replicate 10 false) = none ∧
    get_latest (List.replicate 10 false) = none ∧
    get_earliest [false, false, false, true, true, true, false, false, false, false] = some 3 ∧
    get_latest [false, false, false, true, true, true, false, false, false, false] = some 6 :=
  ⟨get_earliest_none_iff, get_earliest_some, get_latest_none_iff, get_latest_some,
    by decide, by decide, by decide, by decide⟩

/-- C2 witness: the characterizations applied to the example bitmap. -/
theorem c2_earliest_latest_witness :
    (3 < ([false, false, false, true, true, true, false, false, false, false] : List Bool).length ∧
      ([false, false, false, true, true, true, false, false, false, false] : List Bool).getD 3 false = true ∧
      ∀ j < 3, ([false, false, false, true, true, true, false, false, false, false] : List Bool).getD j false = false) ∧
    (1 ≤ 6 ∧ 6 ≤ ([false, false, false, true, true, true, false, false, false, false] : List Bool).length ∧
      ([false, false, false, true, true, true, false, false, false, false] : List Bool).getD 5 false = true ∧
      ∀ j, 6 ≤ j → ([false, false, false, true, true, true, false, false, false, false] : List Bool).getD j false = false) :=
  ⟨c2_earliest_latest.2.1 _ 3 (by decide), c2_earliest_latest.2.2.2.1 _ 6 (by decide)⟩

/-! ## C8: the transition draw -/

/-- C8: the interpreter moves to successor a exactly when the uniform draw
is strictly below the transition probability; probability 1 always selects
successor a (the draw lies in the half-open unit interval) and probability
0 always selects successor b. -/
theorem c8_transition (pa : ℚ) (sa sb : ℕ) (g : Rng) :
    ((rand01 g).1 < pa → (nextState pa sa sb g).1 = sa) ∧
    (¬ (rand01 g).1 < pa → (nextState pa sa sb g).1 = sb) ∧
    (sa ≠ sb → ((nextState pa sa sb g).1 = sa ↔ (rand01 g).1 < pa)) ∧
    (pa = 1 → (nextState pa sa sb g).1 = sa) ∧
    (pa = 0 → (nextState pa sa sb g).1 = sb) := by
  have hn : 0 ≤ (rand01 g).1 := rand01_nonneg g
  have h1 : (rand01 g).1 < 1 := rand01_lt_one g
  have hval : (nextState pa sa sb g).1 = if (rand01 g).1 < pa then sa else sb := rfl
  refine ⟨?_, ?_, ?_, ?_, ?_⟩
  · intro h; rw [hval, if_pos h]
  · intro h; rw [hval, if_neg h]
  · intro hne
    constructor
    · intro he
      by_contra hlt
      rw [hval, if_neg hlt] at he
      exact hne he.symm
    · intro h; rw [hval, if_pos h]
  · intro h; subst h; rw [hval, if_pos h1]
  · intro h; subst h; rw [hval, if_neg (by exact not_lt.mpr hn)]

/-- C8 witness: the transition at probability 1 and probability 0 on a
concrete draw. -/
theorem c8_transition_witness :
    (nextState 1 3 7 (0, halfStream)).1 = 3 ∧ (nextState 0 3 7 (0, halfStream)).1 = 7 :=
  ⟨(c8_transition 1 3 7 (0, halfStream)).2.2.2.1 rfl,
   (c8_transition 0 3 7 (0, halfStream)).2.2.2.2 rfl⟩

/-! ## C5: duration resolution -/

/-- C5: duration resolution of a state.  With min = max = 0 and no
appliance the duration is a uniform draw from [5, 10]; with min = max = 0
and a bound appliance it is that appliance's usual duration, consuming no
draw; otherwise it is a uniform draw from [min(mn, mx), max(mn, mx)]. -/
theorem c5_duration_resolution (m : ActivityModel) (mn mx devID : ℕ) (g : Rng)
    (t : String) (a : Appliance) :
    (mn = 0 → mx = 0 → devID = 0 →
      resolveDuration m mn mx devID g =
        some ((randint 5 10 g).1.toNat, (randint 5 10 g).2) ∧
      5 ≤ (randint 5 10 g).1.toNat ∧ (randint 5 10 g).1.toNat ≤ 10) ∧
    (mn = 0 → mx = 0 → devID ≠ 0 →
      alistGet m.appliance_lookup devID = some t →
      alistGet m.appliance_binding t = some (some a) →
      resolveDuration m mn mx devID g = some (a.usual_duration, g)) ∧
    (¬ (mn = 0 ∧ mx = 0) →
      resolveDuration m mn mx devID g =
        some ((randint ((min mn mx : ℕ) : ℤ) ((max mn mx : ℕ) : ℤ) g).1.toNat,
          (randint ((min mn mx : ℕ) : ℤ) ((max mn mx : ℕ) : ℤ) g).2) ∧
      min mn mx ≤ (randint ((min mn mx : ℕ) : ℤ) ((max mn mx : ℕ) : ℤ) g).1.toNat ∧
      (randint ((min mn mx : ℕ) : ℤ) ((max mn mx : ℕ) : ℤ) g).1.toNat ≤ max mn mx) := by
  refine ⟨?_, ?_, ?_⟩
  · rintro rfl rfl rfl
    obtain ⟨hlo, hhi⟩ := randint_mem (show (5:ℤ) ≤ 10 by norm_num) g
    refine ⟨?_, by omega, by omega⟩
    show resolveDuration m 0 0 0 g = _
    unfold resolveDuration
    rw [if_neg (by simp), if_pos ⟨rfl, rfl, rfl⟩]
  · rintro rfl rfl hdev hl hb
    unfold resolveDuration
    rw [if_pos ⟨rfl, rfl, hdev⟩, Option.bind_eq_bind, hl, Option.some_bind, hb]
    simp
  · intro hne
    have hmm : ((min mn mx : ℕ) : ℤ) ≤ ((max mn mx : ℕ) : ℤ) := by
      exact_mod_cast min_le_max
    obtain ⟨hlo, hhi⟩ := randint_mem hmm g
    refine ⟨?_, by omega, by omega⟩
    unfold resolveDuration
    rw [if_neg (fun hc => hne ⟨hc.1, hc.2.1⟩), if_neg (fun hc => hne ⟨hc.1, hc.2.1⟩)]

/-- C5 witness: the three duration cases evaluated on concrete inputs. -/
theorem c5_duration_resolution_witness :
    (resolveDuration c3act 0 0 0 (0, halfStream) =
        some ((randint 5 10 (0, halfStream)).1.toNat, (randint 5 10 (0, halfStream)).2) ∧
      5 ≤ (randint 5 10 (0, halfStream)).1.toNat ∧
      (randint 5 10 (0, halfStream)).1.toNat ≤ 10) ∧
    resolveDuration c3act 0 0 1 (0, halfStream) = some (c3app.usual_duration, (0, halfStream)) ∧
    (resolveDuration c3act 2 2 1 (0, halfStream) =
        some ((randint ((min 2 2 : ℕ) : ℤ) ((max 2 2 : ℕ) : ℤ) (0, halfStream)).1.toNat,
          (randint ((min 2 2 : ℕ) : ℤ) ((max 2 2 : ℕ) : ℤ) (0, halfStream)).2) ∧
      min 2 2 ≤ (randint ((min 2 2 : ℕ) : ℤ) ((max 2 2 : ℕ) : ℤ) (0, halfStream)).1.toNat ∧
      (randint ((min 2 2 : ℕ) : ℤ) ((max 2 2 : ℕ) : ℤ) (0, halfStream)).1.toNat ≤ max 2 2) :=
  ⟨(c5_duration_resolution c3act 0 0 0 (0, halfStream) "dev" c3app).1 rfl rfl rfl,
   (c5_duration_resolution c3act 0 0 1 (0, halfStream) "dev" c3app).2.1 rfl rfl
     (by norm_num) rfl rfl,
   (c5_duration_resolution c3act 2 2 1 (0, halfStream) "dev" c3app).2.2
     (by norm_num)⟩

/-! ## C6: unbound appliance types -/

/-- C6: when any required appliance binding is still none, synthesize
returns the all-zero activity power array of horizon length and leaves the
powers dict, the events list, the time-of-run bitmap, the user availability
bitmap and the bindings untouched, with zero recorded failures, successes
and commitments; the call returns normally rather than failing. -/
theorem c6_unbound_soft_zero (ctx : SynCtx) (m : ActivityModel) (powers : Powers)
    (events : List Event) (num_days : ℕ) (rate : ℚ) (tor ua : List Bool)
    (spd : ℕ) (vary : Bool) (g : Rng) (np : NpRng)
    (h : m.appliance_binding.any (fun p => p.2.isNone) = true) :
    ActivityModel.synthesize ctx m powers events num_days rate tor ua spd vary g np =
      some { powers := powers,
             events := events,
             time_of_run := tor,
             user_available := ua,
             binding := m.appliance_binding,
             activity_power := zeros (num_days * spd),
             failures := 0,
             successes := 0,
             g := g,
             np := np,
             committed := [] } := by
  unfold ActivityModel.synthesize
  rw [if_pos h]

/-- C6 witness: the unbound variant of the example activity. -/
theorem c6_unbound_soft_zero_witness :
    ActivityModel.synthesize exCtx c6act [] [] 1 1 (List.replicate 10 true)
        (List.replicate 10 true) 10 false (0, halfStream) (0, halfStream) =
      some { powers := [],
             events := [],
             time_of_run := List.replicate 10 true,
             user_available := List.replicate 10 true,
             binding := c6act.appliance_binding,
             activity_power := zeros 10,
             failures := 0,
             successes := 0,
             g := (0, halfStream),
             np := (0, halfStream),
             committed := [] } :=
  c6_unbound_soft_zero exCtx c6act [] [] 1 1 (List.replicate 10 true)
    (List.replicate 10 true) 10 false (0, halfStream) (0, halfStream) (by decide)

/-! ## C9: the on/off waveform -/

/-- C9: an appliance whose active program is one ON_OFF component of
fraction 1 and on-power 60, synthesized at offset t for 10 seconds, returns
a cycle array holding exactly ten samples of 60 at seconds [t, t+10),
adds that cycle onto its cumulative power array, marks exactly the bits
[t, t+10) busy, and leaves the NumPy stream untouched. -/
theorem c9_onoff_waveform (ctx : SynCtx) (aty : String) (ud : ℕ)
    (cand : List (ℕ × List LoadComp)) (busy : List Bool) (tp : List ℚ)
    (t : ℕ) (np : NpRng)
    (hlen : t + 10 ≤ tp.length) (hb : busy.length = tp.length) :
    Appliance.synthesize ctx ⟨aty, ud, [LoadComp.onOff 60 1], cand, busy, tp⟩ t 10 np =
        some (addRange (zeros tp.length) (t + 0) (linspace 60 60 10),
          ⟨aty, ud, [LoadComp.onOff 60 1], cand, setRange busy t 10 true,
            addArr tp (addRange (zeros tp.length) (t + 0) (linspace 60 60 10))⟩,
          np) ∧
      (∀ i, (addRange (zeros tp.length) (t + 0) (linspace 60 60 10)).getD i 0 =
        if t ≤ i ∧ i < t + 10 then 60 else 0) ∧
      (∀ i, i < tp.length →
        (addArr tp (addRange (zeros tp.length) (t + 0) (linspace 60 60 10))).getD i 0 =
          tp.getD i 0 + (if t ≤ i ∧ i < t + 10 then 60 else 0)) ∧
      (∀ i, (setRange busy t 10 true).getD i false =
        (busy.getD i false || decide (t ≤ i ∧ i < t + 10))) := by
  refine ⟨?_, ?_, ?_, ?_⟩
  · with_unfolding_all rfl
  · intro i
    rw [getD_addRange, getD_zeros, length_linspace, length_zeros, zero_add]
    by_cases hc : t ≤ i ∧ i < t + 10
    · rw [if_pos ⟨by omega, by omega, by omega⟩, if_pos hc, linspace_const]
      have hij : i - (t + 0) < 10 := by omega
      rw [List.getD_eq_getElem?_getD, List.getElem?_eq_getElem (by simpa using hij)]
      simp only [Option.getD_some, List.getElem_replicate]
    · rw [if_neg (by omega), if_neg hc]
  · intro i hi
    have hcyc : (addRange (zeros tp.length) (t + 0) (linspace 60 60 10)).length = tp.length := by
      rw [length_addRange, length_zeros]
    rw [getD_addArr _ _ _ hi (by omega)]
    congr 1
    rw [getD_addRange, getD_zeros, length_linspace, length_zeros, zero_add]
    by_cases hc : t ≤ i ∧ i < t + 10
    · rw [if_pos ⟨by omega, by omega, by omega⟩, if_pos hc, linspace_const]
      have hij : i - (t + 0) < 10 := by omega
      rw [List.getD_eq_getElem?_getD, List.getElem?_eq_getElem (by simpa using hij)]
      simp only [Option.getD_some, List.getElem_replicate]
    · rw [if_neg (by omega), if_neg hc]
  · intro i
    rw [getD_setRange]
    by_cases hc : t ≤ i ∧ i < t + 10
    · rw [if_pos ⟨by omega, by omega, by omega⟩]
      simp [hc]
    · rw [if_neg (by omega)]
      simp [hc]

/-- C9 witness: the on/off waveform at offset 1 over a twelve-second
horizon. -/
theorem c9_onoff_waveform_witness :
    Appliance.synthesize exCtx
        ⟨"dev", 2, [LoadComp.onOff 60 1], [], List.replicate 12 false, zeros 12⟩ 1 10
        (0, halfStream) =
      some (addRange (zeros (zeros 12).length) (1 + 0) (linspace 60 60 10),
        ⟨"dev", 2, [LoadComp.onOff 60 1], [], setRange (List.replicate 12 false) 1 10 true,
          addArr (zeros 12) (addRange (zeros (zeros 12).length) (1 + 0) (linspace 60 60 10))⟩,
        (0, halfStream)) ∧
    (∀ i, (addRange (zeros (zeros 12).length) (1 + 0) (linspace 60 60 10)).getD i 0 =
      if 1 ≤ i ∧ i < 1 + 10 then 60 else 0) ∧
    (∀ i, i < (zeros 12).length →
      (addArr (zeros 12) (addRange (zeros (zeros 12).length) (1 + 0) (linspace 60 60 10))).getD i 0 =
        (zeros 12).getD i 0 + (if 1 ≤ i ∧ i < 1 + 10 then 60 else 0)) ∧
    (∀ i, (setRange (List.replicate 12 false) 1 10 true).getD i false =
      ((List.replicate 12 false).getD i false || decide (1 ≤ i ∧ i < 1 + 10))) :=
  c9_onoff_waveform exCtx "dev" 2 [] (List.replicate 12 false) (zeros 12) 1
    (0, halfStream) (by decide) (by decide)

/-! ## C4: event offsets of one committed instance -/

theorem runItems_events (ctx : SynCtx) (aty : String) (s : ℕ) :
    ∀ (sched : Sched) (b : List (String × Option Appliance)) (p : Powers)
      (e : List Event) (ap : List ℚ) (np : NpRng) (fin : ℤ)
      (b1 : List (String × Option Appliance)) (p1 : Powers) (e1 : List Event)
      (ap1 : List ℚ) (np1 : NpRng) (fin1 : ℤ),
      runItems ctx aty s sched (b, p, e, ap, np, fin) = some (b1, p1, e1, ap1, np1, fin1) →
      (∀ ev ∈ sched, 1 ≤ ev.2.2) →
      (∃ rest, e1 = e ++ rest ∧
        ∀ ev ∈ rest, ev.kind = EvKind.DEV ∧ (s : ℤ) ≤ ev.off ∧ ev.off ≤ fin1) ∧
      fin ≤ fin1 ∧
      (fin1 = fin ∨ fin1 ∈ offOffsets s sched) ∧
      (∀ o ∈ offOffsets s sched, o ≤ fin1) := by
  intro sched
  induction sched with
  | nil =>
    intro b p e ap np fin b1 p1 e1 ap1 np1 fin1 hrun hd
    simp only [runItems, Option.some_inj] at hrun
    obtain ⟨rfl, rfl, rfl, rfl, rfl, rfl⟩ := hrun
    exact ⟨⟨[], by simp, by simp⟩, le_refl _, Or.inl rfl, by simp [offOffsets]⟩
  | cons item rest ih =>
    intro b p e ap np fin b1 p1 e1 ap1 np1 fin1 hrun hd
    obtain ⟨a, t, dur⟩ := item
    simp only [runItems, Option.bind_eq_bind] at hrun
    rcases happ : (alistGet b t).bind id with _ | app
    · rw [happ] at hrun; simp at hrun
    · rw [happ] at hrun
      simp only [Option.some_bind] at hrun
      rcases hsyn : app.synthesize ctx (s + a) dur np with _ | trip
      · rw [hsyn] at hrun; simp at hrun
      · rw [hsyn] at hrun
        simp only [Option.some_bind] at hrun
        obtain ⟨cycle, app2, np2⟩ := trip
        have hdur : (1 : ℕ) ≤ dur := hd (a, t, dur) (by simp)
        have hoff : (s : ℤ) ≤ (s : ℤ) + a + dur - 1 := by
          have : (1 : ℤ) ≤ dur := by exact_mod_cast hdur
          omega
        set off : ℤ := (s : ℤ) + a + dur - 1 with hoffdef
        set fmid : ℤ := if fin < off then off else fin with hfmid
        have hfin_le : fin ≤ fmid := by
          rw [hfmid]; split <;> omega
        have hoff_le : off ≤ fmid := by
          rw [hfmid]; split <;> omega
        obtain ⟨⟨tail, htail, htailP⟩, hle, hmem, hub⟩ :=
          ih _ _ _ _ _ _ _ _ _ _ _ _ hrun (fun ev hev => hd ev (by simp [hev]))
        refine ⟨⟨⟨(s : ℤ) + a, EvKind.DEV, app.appliance_type, EvTrans.ON⟩ ::
            ⟨off, EvKind.DEV, app.appliance_type, EvTrans.OFF⟩ :: tail, ?_, ?_⟩, ?_, ?_, ?_⟩
        · rw [htail]; simp
        · intro ev hev
          simp only [List.mem_cons] at hev
          rcases hev with rfl | rfl | hev
          · refine ⟨rfl, ?_, ?_⟩
            · show (s : ℤ) ≤ (s : ℤ) + a
              omega
            · show (s : ℤ) + a ≤ fin1
              have h1 : (s : ℤ) + a ≤ off := by omega
              exact le_trans h1 (le_trans hoff_le hle)
          · exact ⟨rfl, hoff, le_trans hoff_le hle⟩
          · exact htailP ev hev
        · exact le_trans hfin_le hle
        · rcases hmem with hcase | hcase
          · rw [hfmid] at hcase
            by_cases hlt : fin < off
            · rw [if_pos hlt] at hcase
              refine Or.inr ?_
              rw [hcase]
              simp [offOffsets]
            · rw [if_neg hlt] at hcase
              exact Or.inl hcase
          · refine Or.inr ?_
            simp only [offOffsets, List.map_cons, List.mem_cons]
            exact Or.inr (by simpa [offOffsets] using hcase)
        · intro o ho
          simp only [offOffsets, List.map_cons, List.mem_cons] at ho
          rcases ho with rfl | ho
          · exact le_trans hoff_le hle
          · exact hub o (by simpa [offOffsets] using ho)

/-- C4 amended: for one committed activity instance whose scheduled
sub-operations all have duration at least 1 second, the emitted block
starts with the ACTIVITY START event and ends with the ACTIVITY END event,
every emitted DEVICE ON and DEVICE OFF offset lies within
[ACTIVITY START offset, ACTIVITY END offset], and for a non-empty schedule
the ACTIVITY END offset equals the latest appliance OFF offset among the
sub-operations.  (A zero-duration sub-operation violates the original
claim: its OFF event precedes the START event.) -/
theorem c4_instance_bounds (ctx : SynCtx) (aty : String) (s : ℕ) (sched : Sched)
    (binding b1 : List (String × Option Appliance)) (powers p1 : Powers)
    (events e1 : List Event) (ap ap1 : List ℚ) (np np1 : NpRng) (fin : ℤ)
    (hdur : ∀ ev ∈ sched, 1 ≤ ev.2.2)
    (hrun : runInstance ctx aty s sched binding powers events ap np =
      some (b1, p1, e1, ap1, np1, fin)) :
    e1.take events.length = events ∧
    (e1.drop events.length).head? = some ⟨(s : ℤ), EvKind.ACT, aty, EvTrans.START⟩ ∧
    (e1.drop events.length).getLast? = some ⟨fin, EvKind.ACT, aty, EvTrans.END⟩ ∧
    (∀ ev ∈ e1.drop events.length, ev.kind = EvKind.DEV →
      (s : ℤ) ≤ ev.off ∧ ev.off ≤ fin) ∧
    (sched ≠ [] → fin ∈ offOffsets s sched ∧ ∀ o ∈ offOffsets s sched, o ≤ fin) := by
  unfold runInstance at hrun
  simp only [Option.bind_eq_bind] at hrun
  rcases hitems : runItems ctx aty s sched
      (binding, powers, events ++ [⟨(s : ℤ), EvKind.ACT, aty, EvTrans.START⟩], ap, np, 0)
    with _ | out
  · rw [hitems] at hrun; simp at hrun
  · rw [hitems] at hrun
    obtain ⟨ob, op, oe, oap, onp, fin⟩ := out
    simp only [Option.some_bind, Option.some_inj] at hrun
    obtain ⟨rfl, rfl, rfl, rfl, rfl, rfl⟩ := hrun
    obtain ⟨⟨rest, hre, hrP⟩, hge, hmem, hub⟩ :=
      runItems_events ctx aty s sched _ _ _ _ _ _ _ _ _ _ _ _ hitems hdur
    have he1 : oe ++ [⟨fin, EvKind.ACT, aty, EvTrans.END⟩] =
        events ++ (⟨(s : ℤ), EvKind.ACT, aty, EvTrans.START⟩ ::
          (rest ++ [⟨fin, EvKind.ACT, aty, EvTrans.END⟩])) := by
      rw [hre]; simp
    rw [he1]
    refine ⟨List.take_left _ _, ?_, ?_, ?_, ?_⟩
    · rw [List.drop_left]
      rfl
    · rw [List.drop_left]
      rw [show (⟨(s : ℤ), EvKind.ACT, aty, EvTrans.START⟩ ::
          (rest ++ [⟨fin, EvKind.ACT, aty, EvTrans.END⟩]) : List Event) =
        (⟨(s : ℤ), EvKind.ACT, aty, EvTrans.START⟩ :: rest) ++
          [⟨fin, EvKind.ACT, aty, EvTrans.END⟩] from by simp]
      exact List.getLast?_concat _
    · rw [List.drop_left]
      intro ev hev hk
      simp only [List.mem_cons, List.mem_append, List.mem_singleton] at hev
      rcases hev with rfl | hev | rfl | hfalse
      · exact absurd hk (by simp)
      · exact ⟨(hrP ev hev).2.1, (hrP ev hev).2.2⟩
      · exact absurd hk (by simp)
      · simp at hfalse
    · intro hne
      have hhead : ∃ a t dur, (a, t, dur) ∈ sched := by
        rcases sched with _ | ⟨⟨a, t, dur⟩, _⟩
        · exact absurd rfl hne
        · exact ⟨a, t, dur, by simp⟩
      rcases hmem with hzero | hmem
      · subst hzero
        obtain ⟨a, t, dur, hin⟩ := hhead
        have hd1 : (1 : ℕ) ≤ dur := hdur _ hin
        have hoin : ((s : ℤ) + a + dur - 1) ∈ offOffsets s sched := by
          simp only [offOffsets, List.mem_map]
          exact ⟨(a, t, dur), hin, rfl⟩
        have h0 : (0 : ℤ) ≤ (s : ℤ) + a + dur - 1 := by
          have : (1 : ℤ) ≤ dur := by exact_mod_cast hd1
          omega
        have hle0 := hub _ hoin
        have heq : (s : ℤ) + a + dur - 1 = 0 := le_antisymm hle0 h0
        exact ⟨heq ▸ hoin, hub⟩
      · exact ⟨hmem, hub⟩

/-- C4 witness: the bounds applied to the committed instance of the
two-second example run. -/
theorem c4_instance_bounds_witness :
    ((c3run.getD dummySt).events.take ([] : List Event).length = ([] : List Event) ∧
    ((c3run.getD dummySt).events.drop ([] : List Event).length).head? =
      some ⟨(5 : ℤ), EvKind.ACT, "act", EvTrans.START⟩ ∧
    ((c3run.getD dummySt).events.drop ([] : List Event).length).getLast? =
      some ⟨6, EvKind.ACT, "act", EvTrans.END⟩ ∧
    (∀ ev ∈ (c3run.getD dummySt).events.drop ([] : List Event).length,
      ev.kind = EvKind.DEV → (5 : ℤ) ≤ ev.off ∧ ev.off ≤ 6) ∧
    ([(0, "dev", 2)] ≠ ([] : Sched) →
      (6 : ℤ) ∈ offOffsets 5 [(0, "dev", 2)] ∧
      ∀ o ∈ offOffsets 5 [(0, "dev", 2)], o ≤ 6)) :=
  c4_instance_bounds exCtx "act" 5 [(0, "dev", 2)] c3act.appliance_binding
    (c3run.getD dummySt).binding (alistSet [] "act" (zeros 10)) (c3run.getD dummySt).powers
    [] (c3run.getD dummySt).events (zeros 10) (c3run.getD dummySt).activity_power
    (0, halfStream) (c3run.getD dummySt).np 6
    (by decide) (by with_unfolding_all rfl)

/-- C4 counterexample: with a zero-duration sub-operation (reachable from
an appliance whose usual duration is 0) the committed instance emits its
DEVICE OFF event one second before the ACTIVITY START event, so not every
DEVICE offset lies within [ACTIVITY START, ACTIVITY END]. -/
theorem c4_zero_duration_counterexample :
    (c4run.getD dummySt).events =
      [⟨6, EvKind.ACT, "act", EvTrans.START⟩, ⟨6, EvKind.DEV, "dev", EvTrans.ON⟩,
       ⟨5, EvKind.DEV, "dev", EvTrans.OFF⟩, ⟨5, EvKind.ACT, "act", EvTrans.END⟩] ∧
    c4run.isSome = true ∧
    ¬ (∀ ev ∈ (c4run.getD dummySt).events, ev.kind = EvKind.DEV →
        ((c4run.getD dummySt).events.headD ⟨0, EvKind.ACT, "", EvTrans.START⟩).off ≤ ev.off) := by
  refine ⟨by with_unfolding_all rfl, by with_unfolding_all rfl, ?_⟩
  intro hall
  have hmem : (⟨5, EvKind.DEV, "dev", EvTrans.OFF⟩ : Event) ∈ (c4run.getD dummySt).events := by
    rw [show (c4run.getD dummySt).events =
      [⟨6, EvKind.ACT, "act", EvTrans.START⟩, ⟨6, EvKind.DEV, "dev", EvTrans.ON⟩,
       ⟨5, EvKind.DEV, "dev", EvTrans.OFF⟩, ⟨5, EvKind.ACT, "act", EvTrans.END⟩]
      from by with_unfolding_all rfl]
    simp
  have := hall _ hmem rfl
  rw [show ((c4run.getD dummySt).events.headD ⟨0, EvKind.ACT, "", EvTrans.START⟩).off = 6
    from by with_unfolding_all rfl] at this
  exact absurd (this : (6 : ℤ) ≤ 5) (by norm_num)

/-! ## C7: behaviour when no slot fits -/

theorem probeLoop_none (avail : List Bool) (duration horizon : ℕ) (e hi : ℤ)
    (hfree : ∀ s : ℕ, s + duration ≤ horizon → sliceAll avail s duration = false) :
    ∀ (att : ℕ) (g : Rng), (probeLoop avail duration horizon e hi att g).1 = none := by
  intro att
  induction att with
  | zero => intro g; rfl
  | succ n ih =>
    intro g
    unfold probeLoop
    rcases hr : randint e hi g with ⟨s, g1⟩
    simp only []
    by_cases hc : sliceAll avail s.toNat duration = true ∧ s.toNat + duration ≤ horizon
    · have hf := hfree _ hc.2
      rw [hc.1] at hf
      exact absurd hf (by simp)
    · rw [if_neg hc]
      exact ih _

theorem exhaustiveScan_none (avail : List Bool) (duration horizon e cnt : ℕ)
    (hfree : ∀ s : ℕ, s + duration ≤ horizon → sliceAll avail s duration = false) :
    exhaustiveScan avail duration horizon e cnt = none := by
  unfold exhaustiveScan
  rw [List.find?_eq_none]
  intro s hs
  simp only [Bool.and_eq_true, decide_eq_true_eq, not_and]
  intro h1 h2
  have hf := hfree s h2
  rw [h1] at hf
  exact absurd hf (by simp)

theorem bcount_pos_of_avail (umin : Option ℕ) (ua tor df : List Bool) (e : ℕ)
    (he : get_earliest (availabilityOf umin ua tor df) = some e) :
    0 < bcount (bitAnd tor df) := by
  obtain ⟨hlen, hget, -⟩ := get_earliest_some _ _ he
  have hcore : (bitAnd tor df).getD e false = true ∧ e < (bitAnd tor df).length := by
    unfold availabilityOf at hlen hget
    by_cases hu : umin.isSome
    · rw [if_pos hu] at hlen hget
      rw [length_bitAnd, length_bitAnd] at hlen
      have he1 : e < ua.length := by omega
      have he2 : e < tor.length := by omega
      have he3 : e < df.length := by omega
      rw [getD_bitAnd _ _ _ (by rw [length_bitAnd]; omega) he3,
          getD_bitAnd _ _ _ he1 he2] at hget
      simp only [Bool.and_eq_true] at hget
      constructor
      · rw [getD_bitAnd _ _ _ he2 he3, hget.1.2, hget.2]
        rfl
      · rw [length_bitAnd]; omega
    · rw [if_neg hu] at hlen hget
      exact ⟨hget, hlen⟩
  obtain ⟨hval, hl⟩ := hcore
  have hmem : true ∈ bitAnd tor df := by
    rw [List.getD_eq_getElem?_getD, List.getElem?_eq_getElem hl] at hval
    simp only [Option.getD_some] at hval
    rw [← hval]
    exact List.getElem_mem hl
  unfold bcount
  exact List.count_pos_iff.mpr hmem

/-- C7 amended: whenever the intersection of the activity's legal-time
bitmap, the current-day mask and (when user presence is required) the user
availability bitmap contains no fully free window of the candidate
duration inside the horizon, the attempt stops the day's remaining
attempts, leaves the committed windows, events, powers dict, bitmaps and
success count untouched, and increments the scheduling-failure counter
exactly when the legal-time-and-day intersection holds at least one free
second (when even that intersection is empty, the source breaks without
counting a failure, which corrects the original claim). -/
theorem c7_no_slot_failure (ctx : SynCtx) (m : ActivityModel) (num_days spd : ℕ)
    (vary : Bool) (reps : ℕ) (df : List Bool) (st : SchedSt)
    (b1 : List (String × Option Appliance)) (duration : ℕ) (sched : Sched)
    (umin : Option ℕ) (umax : ℕ) (g1 : Rng)
    (hpm : ActivityModel.process_model ctx { m with appliance_binding := st.binding } vary st.g =
      some (b1, duration, some sched, umin, umax, g1))
    (hfree : ∀ s, s + duration ≤ num_days * spd →
      sliceAll (availabilityOf umin st.user_available st.time_of_run df) s duration = false) :
    (repStep ctx m num_days spd vary reps df st).map (fun r =>
      (r.2, r.1.failures, r.1.committed, r.1.events, r.1.powers,
        r.1.time_of_run, r.1.user_available, r.1.successes)) =
    some (true,
      st.failures + (if 0 < bcount (bitAnd st.time_of_run df) then 1 else 0),
      st.committed, st.events, st.powers, st.time_of_run, st.user_available,
      st.successes) := by
  unfold repStep
  rw [hpm]
  simp only []
  rcases he : get_earliest (availabilityOf umin st.user_available st.time_of_run df)
    with _ | e
  · rcases hl : get_latest (availabilityOf umin st.user_available st.time_of_run df)
      with _ | l
    · simp
    · simp
  · rcases hl : get_latest (availabilityOf umin st.user_available st.time_of_run df)
      with _ | l
    · simp
    · dsimp only
      have hpos : 0 < bcount (bitAnd st.time_of_run df) :=
        bcount_pos_of_avail umin st.user_available st.time_of_run df e he
      rcases hp : probeLoop (availabilityOf umin st.user_available st.time_of_run df)
          duration (num_days * spd) e ((l : ℤ) + 1 - duration) 10 g1 with ⟨pr, g2⟩
      have hprn : pr = none := by
        have h0 := probeLoop_none (availabilityOf umin st.user_available st.time_of_run df)
          duration (num_days * spd) e ((l : ℤ) + 1 - duration) hfree 10 g1
        rw [hp] at h0
        exact h0
      subst hprn
      have hscan := exhaustiveScan_none
        (availabilityOf umin st.user_available st.time_of_run df)
        duration (num_days * spd) e (((l : ℤ) + 1 - duration - e).toNat) hfree
      by_cases hck : ((e : ℤ) > (l : ℤ) + 1 - (duration : ℤ))
      · rw [if_pos hck]
        simp
      · rw [if_neg hck]
        dsimp only
        rw [hscan]
        simp [if_pos hpos]

/-- C7 witness: the no-slot behaviour on a day whose legal-time bitmap is
entirely false. -/
theorem c7_no_slot_failure_witness :
    (repStep exCtx c3act 1 10 false 1 (dayFilter 1 10 0) c7st).map (fun r =>
      (r.2, r.1.failures, r.1.committed, r.1.events, r.1.powers,
        r.1.time_of_run, r.1.user_available, r.1.successes)) =
    some (true,
      c7st.failures + (if 0 < bcount (bitAnd c7st.time_of_run (dayFilter 1 10 0)) then 1 else 0),
      c7st.committed, c7st.events, c7st.powers, c7st.time_of_run, c7st.user_available,
      c7st.successes) :=
  c7_no_slot_failure exCtx c3act 1 10 false 1 (dayFilter 1 10 0) c7st
    c3act.appliance_binding 2 [(0, "dev", 2)] none 0 (3, halfStream)
    (by with_unfolding_all rfl)
    (by
      intro s hs
      have hs8 : s ≤ 8 := by omega
      interval_cases s <;> decide)

/-- C7 counterexample: on a day whose legal-time bitmap is entirely false
the placement intersection holds not a single free second, so no free run
of the candidate duration exists, yet the whole run finishes with the
scheduling-failure counter still at zero: the source breaks out of the
attempts without counting a failure whenever the legal-time-and-day
intersection is empty. -/
theorem c7_empty_day_counterexample :
    bcount (availabilityOf none (List.replicate 10 true) (List.replicate 10 false)
      (dayFilter 1 10 0)) = 0 ∧
    c7run.isSome = true ∧
    (c7run.getD dummySt).failures = 0 ∧
    (c7run.getD dummySt).successes = 0 ∧
    (c7run.getD dummySt).committed = [] ∧
    (c7run.getD dummySt).events = [] := by
  refine ⟨by decide, ?_, ?_, ?_, ?_, ?_⟩
  · with_unfolding_all rfl
  · with_unfolding_all rfl
  · with_unfolding_all rfl
  · with_unfolding_all rfl
  · with_unfolding_all rfl

/-! ## C1: the two generators and determinism -/

theorem alistGet_exists [DecidableEq K] :
    ∀ (l : List (K × V)) (k : K) (v : V),
      alistGet l k = some v → ∃ p ∈ l, p.2 = v := by
  intro l
  induction l with
  | nil => intro k v h; simp [alistGet] at h
  | cons x t ih =>
    intro k v h
    by_cases hx : x.1 = k
    · simp only [alistGet, if_pos hx, Option.some_inj] at h
      exact ⟨x, by simp, h⟩
    · simp only [alistGet, if_neg hx] at h
      obtain ⟨p, hp, hv⟩ := ih k v h
      exact ⟨p, by simp [hp], hv⟩

theorem alistSet_all [DecidableEq K] (pred : K × V → Bool) :
    ∀ (l : List (K × V)) (k : K) (v : V), l.all pred = true → pred (k, v) = true →
      (alistSet l k v).all pred = true := by
  intro l
  induction l with
  | nil => intro k v _ hp; simpa [alistSet] using hp
  | cons x t ih =>
    intro k v hall hp
    simp only [List.all_cons, Bool.and_eq_true] at hall
    by_cases hx : x.1 = k
    · simp only [alistSet, if_pos hx, List.all_cons, Bool.and_eq_true]
      exact ⟨hp, hall.2⟩
    · simp only [alistSet, if_neg hx, List.all_cons, Bool.and_eq_true]
      exact ⟨hall.1, ih k v hall.2 hp⟩

theorem bindingNoiseFree_get (b : List (String × Option Appliance)) (t : String)
    (app : Appliance) (hb : bindingNoiseFree b = true)
    (hg : alistGet b t = some (some app)) : app.noiseFree = true := by
  obtain ⟨p, hp, hv⟩ := alistGet_exists b t (some app) hg
  have := List.all_eq_true.mp hb p hp
  rw [hv] at this
  exact this

theorem choice_mem (l : List α) (g : Rng) (x : α) (g1 : Rng)
    (h : choice l g = some (x, g1)) : x ∈ l := by
  unfold choice at h
  rcases hu : rand01 g with ⟨u, gu⟩
  rw [hu] at h
  simp only [] at h
  rcases hg : l.get? (⌊u * l.length⌋.toNat) with _ | y
  · rw [hg] at h; exact absurd h (by simp)
  · rw [hg] at h
    simp only [Option.some_inj] at h
    have hx : y = x := congrArg Prod.fst h
    subst hx
    exact List.get?_mem hg

theorem pick_preserves (a a1 : Appliance) (g g1 : Rng)
    (h : a.pick_another_model g = some (a1, g1)) :
    (a.noiseFree = true → a1.noiseFree = true) ∧
    a1.total_power = a.total_power ∧ a1.busy = a.busy ∧
    a1.candidates = a.candidates ∧ a1.appliance_type = a.appliance_type := by
  unfold Appliance.pick_another_model at h
  rcases hc : choice a.candidates g with _ | p
  · rw [hc] at h; exact absurd h (by simp)
  · rw [hc] at h
    obtain ⟨⟨ud, cs⟩, g2⟩ := p
    simp only [Option.some_inj] at h
    obtain ⟨rfl, rfl⟩ := Prod.mk.injEq .. ▸ h
    refine ⟨?_, rfl, rfl, rfl, rfl⟩
    intro hnf
    have hmem := choice_mem _ _ _ _ hc
    unfold Appliance.noiseFree at hnf ⊢
    simp only [Bool.and_eq_true] at hnf ⊢
    refine ⟨?_, hnf.2⟩
    have := List.all_eq_true.mp hnf.2 _ hmem
    simpa using this

theorem pickAllModels_binding :
    ∀ (b : List (String × Option Appliance)) (g : Rng)
      (b1 : List (String × Option Appliance)) (g1 : Rng),
      pickAllModels b g = some (b1, g1) →
      (bindingNoiseFree b = true → bindingNoiseFree b1 = true) ∧
      ∀ (horizon : ℕ), bindingLenOK horizon b = true → bindingLenOK horizon b1 = true := by
  intro b
  induction b with
  | nil =>
    intro g b1 g1 h
    simp only [pickAllModels, Option.some_inj] at h
    obtain ⟨rfl, rfl⟩ := Prod.mk.injEq .. ▸ h
    exact ⟨id, fun _ => id⟩
  | cons x t ih =>
    intro g b1 g1 h
    obtain ⟨tk, ov⟩ := x
    rcases ov with _ | a
    · simp [pickAllModels] at h
    · simp only [pickAllModels, Option.bind_eq_bind] at h
      rcases hp : a.pick_another_model g with _ | pa
      · rw [hp] at h; simp at h
      · rw [hp] at h
        obtain ⟨a1, g2⟩ := pa
        simp only [Option.some_bind] at h
        rcases hr : pickAllModels t g2 with _ | pr
        · rw [hr] at h; simp at h
        · rw [hr] at h
          obtain ⟨t1, g3⟩ := pr
          simp only [Option.some_bind, Option.some_inj] at h
          obtain ⟨rfl, rfl⟩ := Prod.mk.injEq .. ▸ h
          obtain ⟨hnfa, htp, hbz, hcand, haty⟩ := pick_preserves a a1 g g2 hp
          obtain ⟨ihn, ihl⟩ := ih g2 t1 g3 hr
          constructor
          · intro hnf
            simp only [bindingNoiseFree, List.all_cons, Bool.and_eq_true] at hnf ⊢
            exact ⟨hnfa hnf.1, ihn hnf.2⟩
          · intro horizon hlen
            simp only [bindingLenOK, List.all_cons, Bool.and_eq_true] at hlen ⊢
            refine ⟨?_, ihl horizon hlen.2⟩
            rw [htp]
            exact hlen.1

theorem synthComps_length (ctx : SynCtx) (duration offset : ℕ) :
    ∀ (cs : List LoadComp) (entry : List ℚ) (start : ℕ) (np : NpRng)
      (entry1 : List ℚ) (np1 : NpRng),
      synthComps ctx duration offset cs entry start np = some (entry1, np1) →
      entry1.length = entry.length := by
  intro cs
  induction cs with
  | nil =>
    intro entry start np entry1 np1 h
    simp only [synthComps, Option.some_inj] at h
    injection h with h1 h2
    rw [← h1]
  | cons c t ih =>
    intro entry start np entry1 np1 h
    simp only [synthComps] at h
    split at h
    · exact ih entry start np entry1 np1 h
    · simp only [Option.bind_eq_bind] at h
      rcases hs : c.synthesize ctx (pyRound (c.dur * duration)).toNat np with _ | pr
      · rw [hs] at h; simp at h
      · rw [hs] at h
        simp only [Option.some_bind] at h
        have := ih _ _ _ _ _ h
        rw [this, length_addRange]

theorem Appliance.synthesize_preserves (ctx : SynCtx) (a : Appliance) (o d : ℕ)
    (np : NpRng) (c : List ℚ) (a1 : Appliance) (np1 : NpRng)
    (h : a.synthesize ctx o d np = some (c, a1, np1)) :
    a1.comps = a.comps ∧ a1.candidates = a.candidates ∧
    a1.appliance_type = a.appliance_type ∧ a1.usual_duration = a.usual_duration ∧
    a1.total_power.length = a.total_power.length ∧
    (a.noiseFree = true → a1.noiseFree = true) ∧
    c.length = a.total_power.length := by
  unfold Appliance.synthesize at h
  rcases hs : synthComps ctx d o a.comps (zeros a.total_power.length) 0 np with _ | pr
  · rw [hs] at h; simp at h
  · rw [hs] at h
    obtain ⟨entry, np2⟩ := pr
    simp only [Option.bind_eq_bind, Option.some_bind, Option.some_inj] at h
    have hc : entry = c := congrArg Prod.fst h
    have ha : ({ a with
        total_power := addArr a.total_power entry,
        busy := setRange a.busy o d true } : Appliance) = a1 :=
      congrArg (fun x => x.2.1) h
    have hel : entry.length = a.total_power.length := by
      rw [synthComps_length ctx d o a.comps _ 0 np entry np2 hs, length_zeros]
    subst hc
    rw [← ha]
    refine ⟨rfl, rfl, rfl, rfl, ?_, ?_, hel⟩
    · simp only [length_addArr]
      omega
    · intro hnf
      unfold Appliance.noiseFree at hnf ⊢
      exact hnf

theorem process_model_binding (ctx : SynCtx) (m : ActivityModel) (vary : Bool)
    (g : Rng) (b1 : List (String × Option Appliance)) (total : ℕ)
    (so : Option Sched) (umin : Option ℕ) (umax : ℕ) (g1 : Rng)
    (h : m.process_model ctx vary g = some (b1, total, so, umin, umax, g1)) :
    (bindingNoiseFree m.appliance_binding = true → bindingNoiseFree b1 = true) ∧
    ∀ horizon, bindingLenOK horizon m.appliance_binding = true →
      bindingLenOK horizon b1 = true := by
  unfold ActivityModel.process_model at h
  cases vary with
  | false =>
    simp only [Bool.false_eq_true, if_false, Option.some_bind, Option.bind_eq_bind] at h
    rcases hw : pmLoop { m with appliance_binding := m.appliance_binding } ctx.fuel 0 0 [] none 0 g
      with _ | r
    · rw [hw] at h; simp at h
    · rw [hw] at h
      obtain ⟨a2, b2, c2, d2, e2⟩ := r
      simp only [Option.some_bind, Option.some_inj] at h
      have hb : m.appliance_binding = b1 := congrArg Prod.fst h
      rw [← hb]
      exact ⟨id, fun _ => id⟩
  | true =>
    simp only [if_true, Option.bind_eq_bind] at h
    rcases hp : pickAllModels m.appliance_binding g with _ | pb
    · rw [hp] at h; simp at h
    · rw [hp] at h
      obtain ⟨bp, gp⟩ := pb
      simp only [Option.some_bind] at h
      rcases hw : pmLoop { m with appliance_binding := bp } ctx.fuel 0 0 [] none 0 gp
        with _ | r
      · rw [hw] at h; simp at h
      · rw [hw] at h
        obtain ⟨a2, b2, c2, d2, e2⟩ := r
        simp only [Option.some_bind, Option.some_inj] at h
        have hb : bp = b1 := congrArg Prod.fst h
        subst hb
        obtain ⟨hn, hl⟩ := pickAllModels_binding m.appliance_binding g bp gp hp
        exact ⟨hn, hl⟩

theorem bind_id_some {o : Option (Option α)} {a : α} (h : o.bind id = some a) :
    o = some (some a) := by
  rcases o with _ | ob
  · simp at h
  · simp only [Option.some_bind, id_eq] at h
    rw [h]

theorem runItems_noiseFree (ctx : SynCtx) (aty : String) (s : ℕ) :
    ∀ (sched : Sched) (b : List (String × Option Appliance)) (p : Powers)
      (e : List Event) (ap : List ℚ) (np : NpRng) (fin : ℤ)
      (b1 : List (String × Option Appliance)) (p1 : Powers) (e1 : List Event)
      (ap1 : List ℚ) (np1 : NpRng) (fin1 : ℤ),
      runItems ctx aty s sched (b, p, e, ap, np, fin) = some (b1, p1, e1, ap1, np1, fin1) →
      bindingNoiseFree b = true → bindingNoiseFree b1 = true := by
  intro sched
  induction sched with
  | nil =>
    intro b p e ap np fin b1 p1 e1 ap1 np1 fin1 h hnf
    simp only [runItems, Option.some_inj] at h
    have hb : b = b1 := congrArg (fun x => x.1) h
    rw [← hb]; exact hnf
  | cons item rest ih =>
    intro b p e ap np fin b1 p1 e1 ap1 np1 fin1 h hnf
    obtain ⟨a, t, dur⟩ := item
    simp only [runItems, Option.bind_eq_bind] at h
    rcases happ : (alistGet b t).bind id with _ | app
    · rw [happ] at h; simp at h
    · rw [happ] at h
      simp only [Option.some_bind] at h
      rcases hs : app.synthesize ctx (s + a) dur np with _ | tr
      · rw [hs] at h; simp at h
      · rw [hs] at h
        obtain ⟨cycle, app2, np2⟩ := tr
        simp only [Option.some_bind] at h
        have hga := bind_id_some happ
        have hnfa := bindingNoiseFree_get b t app hnf hga
        obtain ⟨-, -, -, -, -, hnfp, -⟩ :=
          Appliance.synthesize_preserves ctx app (s + a) dur np cycle app2 np2 hs
        refine ih _ _ _ _ _ _ _ _ _ _ _ _ h ?_
        exact alistSet_all _ b t (some app2) hnf (hnfp hnfa)

theorem runItems_np (ctx : SynCtx) (aty : String) (s : ℕ) :
    ∀ (sched : Sched) (b : List (String × Option Appliance)) (p : Powers)
      (e : List Event) (ap : List ℚ) (np np2 : NpRng) (fin : ℤ),
      bindingNoiseFree b = true →
      runItems ctx aty s sched (b, p, e, ap, np, fin) =
        (runItems ctx aty s sched (b, p, e, ap, np2, fin)).map
          (fun r => (r.1, r.2.1, r.2.2.1, r.2.2.2.1, np, r.2.2.2.2.2)) := by
  intro sched
  induction sched with
  | nil => intro b p e ap np np2 fin h; rfl
  | cons item rest ih =>
    intro b p e ap np np2 fin hnf
    obtain ⟨a, t, dur⟩ := item
    simp only [runItems, Option.bind_eq_bind]
    rcases happ : (alistGet b t).bind id with _ | app
    · simp
    · simp only [Option.some_bind]
      have hga := bind_id_some happ
      have hnfa := bindingNoiseFree_get b t app hnf hga
      have hcomps : app.comps.all (fun c => !c.isNoise) = true := by
        unfold Appliance.noiseFree at hnfa
        exact (Bool.and_eq_true_iff.mp hnfa).1
      rw [Appliance.synthesize_np ctx app (s + a) dur hcomps np np2]
      rcases hs2 : app.synthesize ctx (s + a) dur np2 with _ | tr
      · simp
      · obtain ⟨cycle, app2, np2b⟩ := tr
        simp only [Option.map_some', Option.some_bind]
        obtain ⟨-, -, -, -, -, hnfp, -⟩ :=
          Appliance.synthesize_preserves ctx app (s + a) dur np2 cycle app2 np2b hs2
        exact ih _ _ _ _ np np2b _
          (alistSet_all _ b t (some app2) hnf (hnfp hnfa))

theorem runInstance_np (ctx : SynCtx) (aty : String) (s : ℕ) (sched : Sched)
    (binding : List (String × Option Appliance)) (powers : Powers)
    (events : List Event) (ap : List ℚ) (np np2 : NpRng)
    (h : bindingNoiseFree binding = true) :
    runInstance ctx aty s sched binding powers events ap np =
      (runInstance ctx aty s sched binding powers events ap np2).map
        (fun r => (r.1, r.2.1, r.2.2.1, r.2.2.2.1, np, r.2.2.2.2.2)) := by
  unfold runInstance
  simp only [Option.bind_eq_bind]
  rw [runItems_np ctx aty s sched binding powers _ ap np np2 0 h]
  rcases ho : runItems ctx aty s sched
      (binding, powers, events ++ [⟨(s : ℤ), EvKind.ACT, aty, EvTrans.START⟩], ap, np2, 0)
    with _ | out
  · rw [ho]; simp
  · rw [ho]
    obtain ⟨ob, op, oe, oap, onp, ofin⟩ := out
    simp

theorem runInstance_noiseFree (ctx : SynCtx) (aty : String) (s : ℕ) (sched : Sched)
    (binding : List (String × Option Appliance)) (powers : Powers)
    (events : List Event) (ap : List ℚ) (np : NpRng)
    (b1 : List (String × Option Appliance)) (p1 : Powers) (e1 : List Event)
    (ap1 : List ℚ) (np1 : NpRng) (fin : ℤ)
    (h : runInstance ctx aty s sched binding powers events ap np =
      some (b1, p1, e1, ap1, np1, fin))
    (hnf : bindingNoiseFree binding = true) : bindingNoiseFree b1 = true := by
  unfold runInstance at h
  simp only [Option.bind_eq_bind] at h
  rcases ho : runItems ctx aty s sched
      (binding, powers, events ++ [⟨(s : ℤ), EvKind.ACT, aty, EvTrans.START⟩], ap, np, 0)
    with _ | out
  · rw [ho] at h; simp at h
  · rw [ho] at h
    obtain ⟨ob, op, oe, oap, onp, ofin⟩ := out
    simp only [Option.some_bind, Option.some_inj] at h
    have hb : ob = b1 := congrArg (fun x => x.1) h
    subst hb
    exact runItems_noiseFree ctx aty s sched _ _ _ _ _ _ _ _ _ _ _ _ ho hnf

theorem repStep_np (ctx : SynCtx) (m : ActivityModel) (num_days spd : ℕ)
    (vary : Bool) (reps : ℕ) (df : List Bool) (st : SchedSt) (np2 : NpRng)
    (h : bindingNoiseFree st.binding = true) :
    repStep ctx m num_days spd vary reps df st =
      (repStep ctx m num_days spd vary reps df (st.setNp np2)).map
        (fun r => ({ r.1 with np := st.np }, r.2)) := by
  unfold repStep SchedSt.setNp
  dsimp only
  rcases hpm : ActivityModel.process_model ctx
      { m with appliance_binding := st.binding } vary st.g with _ | res
  · rfl
  · obtain ⟨b1, duration, schedOpt, umin, umax, g1⟩ := res
    have hn1 : bindingNoiseFree b1 = true :=
      (process_model_binding ctx { m with appliance_binding := st.binding }
        vary st.g b1 duration schedOpt umin umax g1 hpm).1 h
    rcases schedOpt with _ | sched
    · rfl
    · dsimp only
      rcases he : get_earliest (availabilityOf umin st.user_available st.time_of_run df)
        with _ | e
      · rcases hl : get_latest (availabilityOf umin st.user_available st.time_of_run df)
          with _ | l
        · rfl
        · rfl
      · rcases hl : get_latest (availabilityOf umin st.user_available st.time_of_run df)
          with _ | l
        · rfl
        · dsimp only
          by_cases hck : ((e : ℤ) > (l : ℤ) + 1 - (duration : ℤ))
          · rw [if_pos hck, if_pos hck]
            rfl
          · rw [if_neg hck, if_neg hck]
            rcases hp : probeLoop (availabilityOf umin st.user_available st.time_of_run df)
                duration (num_days * spd) e ((l : ℤ) + 1 - duration) 10 g1 with ⟨pr, g2⟩
            dsimp only
            rcases pr with _ | sfound
            · rcases hscan : exhaustiveScan
                  (availabilityOf umin st.user_available st.time_of_run df)
                  duration (num_days * spd) e (((l : ℤ) + 1 - duration - e).toNat)
                with _ | sfound2
              · rfl
              · dsimp only
                rw [runInstance_np ctx m.activity_type sfound2 sched b1 st.powers
                  st.events st.activity_power st.np np2 hn1]
                rcases hri : runInstance ctx m.activity_type sfound2 sched b1 st.powers
                    st.events st.activity_power np2 with _ | out
                · rfl
                · obtain ⟨b2, p2, e2, ap2, np2b, fin⟩ := out
                  rfl
            · dsimp only
              rw [runInstance_np ctx m.activity_type sfound sched b1 st.powers
                st.events st.activity_power st.np np2 hn1]
              rcases hri : runInstance ctx m.activity_type sfound sched b1 st.powers
                  st.events st.activity_power np2 with _ | out
              · rfl
              · obtain ⟨b2, p2, e2, ap2, np2b, fin⟩ := out
                rfl

theorem repStep_noiseFree (ctx : SynCtx) (m : ActivityModel) (num_days spd : ℕ)
    (vary : Bool) (reps : ℕ) (df : List Bool) (st st1 : SchedSt) (brk : Bool)
    (h : repStep ctx m num_days spd vary reps df st = some (st1, brk))
    (hnf : bindingNoiseFree st.binding = true) : bindingNoiseFree st1.binding = true := by
  unfold repStep at h
  rcases hpm : ActivityModel.process_model ctx
      { m with appliance_binding := st.binding } vary st.g with _ | res
  · rw [hpm] at h; simp at h
  · rw [hpm] at h
    obtain ⟨b1, duration, schedOpt, umin, umax, g1⟩ := res
    have hn1 : bindingNoiseFree b1 = true :=
      (process_model_binding ctx { m with appliance_binding := st.binding }
        vary st.g b1 duration schedOpt umin umax g1 hpm).1 hnf
    rcases schedOpt with _ | sched
    · simp only [Option.some_inj] at h
      have hb : b1 = st1.binding := congrArg (fun x => x.1.binding) h
      rw [← hb]; exact hn1
    · dsimp only at h
      rcases he : get_earliest (availabilityOf umin st.user_available st.time_of_run df)
        with _ | e <;>
        rcases hl : get_latest (availabilityOf umin st.user_available st.time_of_run df)
          with _ | l <;>
        rw [he, hl] at h
      · simp only [Option.some_inj] at h
        have hb : b1 = st1.binding := congrArg (fun x => x.1.binding) h
        rw [← hb]; exact hn1
      · simp only [Option.some_inj] at h
        have hb : b1 = st1.binding := congrArg (fun x => x.1.binding) h
        rw [← hb]; exact hn1
      · simp only [Option.some_inj] at h
        have hb : b1 = st1.binding := congrArg (fun x => x.1.binding) h
        rw [← hb]; exact hn1
      · dsimp only at h
        by_cases hck : ((e : ℤ) > (l : ℤ) + 1 - (duration : ℤ))
        · rw [if_pos hck] at h
          simp only [Option.some_inj] at h
          have hb : b1 = st1.binding := congrArg (fun x => x.1.binding) h
          rw [← hb]; exact hn1
        · rw [if_neg hck] at h
          rcases hp : probeLoop (availabilityOf umin st.user_available st.time_of_run df)
              duration (num_days * spd) e ((l : ℤ) + 1 - duration) 10 g1 with ⟨pr, g2⟩
          rw [hp] at h
          dsimp only at h
          rcases pr with _ | sfound
          · rcases hscan : exhaustiveScan
                (availabilityOf umin st.user_available st.time_of_run df)
                duration (num_days * spd) e (((l : ℤ) + 1 - duration - e).toNat)
              with _ | sfound2
            · rw [hscan] at h
              simp only [Option.some_inj] at h
              have hb : b1 = st1.binding := congrArg (fun x => x.1.binding) h
              rw [← hb]; exact hn1
            · rw [hscan] at h
              dsimp only at h
              rcases hri : runInstance ctx m.activity_type sfound2 sched b1 st.powers
                  st.events st.activity_power st.np with _ | out
              · rw [hri] at h; simp at h
              · rw [hri] at h
                obtain ⟨b2, p2, e2, ap2, np2b, fin⟩ := out
                simp only [Option.some_inj] at h
                have hb : b2 = st1.binding := congrArg (fun x => x.1.binding) h
                rw [← hb]
                exact runInstance_noiseFree ctx m.activity_type sfound2 sched b1
                  st.powers st.events st.activity_power st.np b2 p2 e2 ap2 np2b fin hri hn1
          · dsimp only at h
            rcases hri : runInstance ctx m.activity_type sfound sched b1 st.powers
                st.events st.activity_power st.np with _ | out
            · rw [hri] at h; simp at h
            · rw [hri] at h
              obtain ⟨b2, p2, e2, ap2, np2b, fin⟩ := out
              simp only [Option.some_inj] at h
              have hb : b2 = st1.binding := congrArg (fun x => x.1.binding) h
              rw [← hb]
              exact runInstance_noiseFree ctx m.activity_type sfound sched b1
                st.powers st.events st.activity_power st.np b2 p2 e2 ap2 np2b fin hri hn1

theorem repsLoop_np (ctx : SynCtx) (m : ActivityModel) (num_days spd : ℕ)
    (vary : Bool) (reps : ℕ) (df : List Bool) :
    ∀ (r : ℕ) (st : SchedSt) (np2 : NpRng), bindingNoiseFree st.binding = true →
      (repsLoop ctx m num_days spd vary reps df r st =
        (repsLoop ctx m num_days spd vary reps df r (st.setNp np2)).map
          (fun r1 => { r1 with np := st.np })) ∧
      (∀ st1, repsLoop ctx m num_days spd vary reps df r st = some st1 →
        bindingNoiseFree st1.binding = true) := by
  intro r
  induction r with
  | zero =>
    intro st np2 hnf
    constructor
    · rfl
    · intro st1 h
      simp only [repsLoop, Option.some_inj] at h
      rw [← h]; exact hnf
  | succ n ih =>
    intro st np2 hnf
    constructor
    · unfold repsLoop
      rw [repStep_np ctx m num_days spd vary reps df st np2 hnf]
      rcases hs : repStep ctx m num_days spd vary reps df (st.setNp np2) with _ | pr
      · rfl
      · obtain ⟨st1, brk⟩ := pr
        dsimp only [Option.map_some']
        have hnf1 : bindingNoiseFree st1.binding = true :=
          repStep_noiseFree ctx m num_days spd vary reps df (st.setNp np2) st1 brk hs hnf
        cases brk with
        | true => rfl
        | false =>
          show repsLoop ctx m num_days spd vary reps df n { st1 with np := st.np } = _
          have heta : ({ st1 with np := st.np } : SchedSt).setNp st1.np = st1 := rfl
          have := (ih { st1 with np := st.np } st1.np (by exact hnf1)).1
          rw [heta] at this
          exact this
    · intro st1 h
      simp only [repsLoop] at h
      rcases hs : repStep ctx m num_days spd vary reps df st with _ | pr
      · rw [hs] at h; simp at h
      · rw [hs] at h
        obtain ⟨st2, brk⟩ := pr
        have hnf2 : bindingNoiseFree st2.binding = true :=
          repStep_noiseFree ctx m num_days spd vary reps df st st2 brk hs hnf
        cases brk with
        | true =>
          simp only [if_true, Option.some_inj] at h
          rw [← h]; exact hnf2
        | false =>
          simp only [Bool.false_eq_true, if_false] at h
          exact (ih st2 st2.np hnf2).2 st1 h

theorem dayStep_np (ctx : SynCtx) (m : ActivityModel) (num_days spd : ℕ)
    (vary : Bool) (rate : ℚ) (d : ℕ) (st : SchedSt) (np2 : NpRng)
    (hnf : bindingNoiseFree st.binding = true) :
    (dayStep ctx m num_days spd vary rate d st =
      (dayStep ctx m num_days spd vary rate d (st.setNp np2)).map
        (fun r1 => { r1 with np := st.np })) ∧
    (∀ st1, dayStep ctx m num_days spd vary rate d st = some st1 →
      bindingNoiseFree st1.binding = true) := by
  unfold dayStep SchedSt.setNp
  dsimp only
  rcases hr : repsFor rate st.g with ⟨reps, g1⟩
  dsimp only
  have h1 := repsLoop_np ctx m num_days spd vary reps (dayFilter num_days spd d) reps
    { st with g := g1 } np2 (by exact hnf)
  exact ⟨h1.1, h1.2⟩

theorem dayLoop_np (ctx : SynCtx) (m : ActivityModel) (num_days spd : ℕ)
    (vary : Bool) (rate : ℚ) :
    ∀ (ds : List ℕ) (st : SchedSt) (np2 : NpRng), bindingNoiseFree st.binding = true →
      dayLoop ctx m num_days spd vary rate ds st =
        (dayLoop ctx m num_days spd vary rate ds (st.setNp np2)).map
          (fun r1 => { r1 with np := st.np }) := by
  intro ds
  induction ds with
  | nil => intro st np2 hnf; rfl
  | cons d rest ih =>
    intro st np2 hnf
    unfold dayLoop
    rw [(dayStep_np ctx m num_days spd vary rate d st np2 hnf).1]
    rcases hs : dayStep ctx m num_days spd vary rate d (st.setNp np2) with _ | st1
    · rfl
    · dsimp only [Option.map_some', Option.some_bind]
      have hnf1 : bindingNoiseFree st1.binding = true :=
        (dayStep_np ctx m num_days spd vary rate d (st.setNp np2) st1.np
          (by exact hnf)).2 st1 hs
      have heta : ({ st1 with np := st.np } : SchedSt).setNp st1.np = st1 := rfl
      have := ih { st1 with np := st.np } st1.np (by exact hnf1)
      rw [heta] at this
      exact this

/-- C1 amended: the scheduler, interpreter and waveform synthesis draw
their randomness (rep counts, durations, jitter, transitions, slot probes,
model selection) from the seeded generator alone, while noise-model
samples are drawn from the separate NumPy global generator, which the seed
does not initialize.  Consequently, whenever every bound appliance is free
of noise components, the whole activity synthesis result is independent of
the NumPy stream: two runs with the same seeded generator and inputs agree
on every output, with the NumPy state passed through untouched.  (With a
noise component present, identical seeds can yield different power arrays;
see the counterexample.) -/
theorem c1_seeded_determinism (ctx : SynCtx) (m : ActivityModel) (powers : Powers)
    (events : List Event) (num_days : ℕ) (rate : ℚ) (tor ua : List Bool)
    (spd : ℕ) (vary : Bool) (g : Rng) (np np2 : NpRng)
    (h : bindingNoiseFree m.appliance_binding = true) :
    ActivityModel.synthesize ctx m powers events num_days rate tor ua spd vary g np =
      (ActivityModel.synthesize ctx m powers events num_days rate tor ua spd vary g np2).map
        (fun r => { r with np := np }) := by
  unfold ActivityModel.synthesize
  by_cases hb : m.appliance_binding.any (fun p => p.2.isNone) = true
  · rw [if_pos hb, if_pos hb]
    rfl
  · rw [if_neg hb, if_neg hb]
    exact dayLoop_np ctx m num_days spd vary rate (List.range num_days) _ np2 (by exact h)

/-- C1 witness: the noise-free example activity run under two different
NumPy streams. -/
theorem c1_seeded_determinism_witness :
    ActivityModel.synthesize exCtx c3act [] [] 1 1 (List.replicate 10 true)
        (List.replicate 10 true) 10 false (0, halfStream) (0, zeroStream) =
      (ActivityModel.synthesize exCtx c3act [] [] 1 1 (List.replicate 10 true)
        (List.replicate 10 true) 10 false (0, halfStream) (0, oneStream)).map
        (fun r => { r with np := (0, zeroStream) }) :=
  c1_seeded_determinism exCtx c3act [] [] 1 1 (List.replicate 10 true)
    (List.replicate 10 true) 10 false (0, halfStream) (0, zeroStream) (0, oneStream)
    (by decide)

/-- C1 counterexample: a noise-model appliance invoked with identical
seeded-generator state and identical inputs produces different power
arrays under two states of the NumPy global generator, which the program
seed never initializes: the noise samples are not drawn from the one
seeded generator, and byte-identical reproduction fails for noise
components. -/
theorem c1_numpy_noise_counterexample :
    (Appliance.synthesize exCtx c1app 0 1 (0, zeroStream)).map (fun p => p.1) =
      some [0, 0, 0] ∧
    (Appliance.synthesize exCtx c1app 0 1 (0, oneStream)).map (fun p => p.1) =
      some [1, 0, 0] ∧
    (Appliance.synthesize exCtx c1app 0 1 (0, zeroStream)).map (fun p => p.1) ≠
      (Appliance.synthesize exCtx c1app 0 1 (0, oneStream)).map (fun p => p.1) := by
  have h1 : (Appliance.synthesize exCtx c1app 0 1 (0, zeroStream)).map (fun p => p.1) =
      some [0, 0, 0] := by with_unfolding_all rfl
  have h2 : (Appliance.synthesize exCtx c1app 0 1 (0, oneStream)).map (fun p => p.1) =
      some [1, 0, 0] := by with_unfolding_all rfl
  refine ⟨h1, h2, ?_⟩
  intro hc
  rw [h1, h2] at hc
  simp only [Option.some_inj, List.cons.injEq] at hc
  exact absurd hc.1 (by norm_num)

/-! ## C3: disjointness and immutability of committed windows -/

theorem sliceAll_of_getD {l : List Bool} {s n : ℕ} (hb : s + n ≤ l.length)
    (h : ∀ i, s ≤ i → i < s + n → l.getD i false = true) : sliceAll l s n = true := by
  unfold sliceAll slice
  rw [List.all_eq_true]
  intro x hx
  rw [List.mem_iff_getElem] at hx
  obtain ⟨j, hj, hxe⟩ := hx
  have hlen : ((l.drop s).take n).length = n := by
    rw [List.length_take, List.length_drop]; omega
  have hjn : j < n := by omega
  have hdl : j < (l.drop s).length := by rw [List.length_drop]; omega
  have hsj : s + j < l.length := by omega
  have e1 : ((l.drop s).take n)[j] = (l.drop s)[j] := List.getElem_take _
  have e2 : (l.drop s)[j] = l[s + j] := List.getElem_drop _
  have hv := h (s + j) (by omega) (by omega)
  rw [List.getD_eq_getElem?_getD,
      List.getElem?_eq_getElem (show s + j < l.length by omega)] at hv
  simp only [Option.getD_some] at hv
  rw [← hxe, e1, e2]
  simpa using hv

theorem probeLoop_some (avail : List Bool) (duration horizon : ℕ) (e hi : ℤ) :
    ∀ (att : ℕ) (g : Rng) (s : ℕ) (g1 : Rng),
      probeLoop avail duration horizon e hi att g = (some s, g1) →
      sliceAll avail s duration = true ∧ s + duration ≤ horizon := by
  intro att
  induction att with
  | zero =>
    intro g s g1 h
    exact absurd (congrArg Prod.fst h) (by simp [probeLoop])
  | succ n ih =>
    intro g s g1 h
    unfold probeLoop at h
    rcases hr : randint e hi g with ⟨s0, g0⟩
    rw [hr] at h
    dsimp only at h
    by_cases hc : sliceAll avail s0.toNat duration = true ∧ s0.toNat + duration ≤ horizon
    · rw [if_pos hc] at h
      simp only [Prod.mk.injEq, Option.some_inj] at h
      obtain ⟨rfl, -⟩ := h
      exact hc
    · rw [if_neg hc] at h
      exact ih g0 s g1 h

theorem exhaustiveScan_some (avail : List Bool) (duration horizon e cnt s : ℕ)
    (h : exhaustiveScan avail duration horizon e cnt = some s) :
    sliceAll avail s duration = true ∧ s + duration ≤ horizon := by
  unfold exhaustiveScan at h
  have hp := List.find?_some h
  simp only [Bool.and_eq_true, decide_eq_true_eq] at hp
  exact hp

theorem length_availabilityOf (umin : Option ℕ) (ua tor df : List Bool) (horizon : ℕ)
    (hua : ua.length = horizon) (htor : tor.length = horizon) (hdf : df.length = horizon) :
    (availabilityOf umin ua tor df).length = horizon := by
  unfold availabilityOf
  by_cases hu : umin.isSome
  · rw [if_pos hu]
    simp [hua, htor, hdf]
  · rw [if_neg hu]
    simp [htor, hdf]

theorem availabilityOf_getD_tor (umin : Option ℕ) (ua tor df : List Bool) (horizon i : ℕ)
    (hua : ua.length = horizon) (htor : tor.length = horizon) (hdf : df.length = horizon)
    (hi : i < horizon)
    (h : (availabilityOf umin ua tor df).getD i false = true) :
    tor.getD i false = true := by
  unfold availabilityOf at h
  by_cases hu : umin.isSome
  · rw [if_pos hu] at h
    rw [getD_bitAnd _ _ _ (by rw [length_bitAnd, hua, htor, Nat.min_self]; exact hi)
        (by omega)] at h
    rw [getD_bitAnd _ _ _ (by omega) (by omega)] at h
    simp only [Bool.and_eq_true] at h
    exact h.1.2
  · rw [if_neg hu] at h
    rw [getD_bitAnd _ _ _ (by omega) (by omega)] at h
    simp only [Bool.and_eq_true] at h
    exact h.1

theorem length_dayFilter (num_days spd d : ℕ) :
    (dayFilter num_days spd d).length = num_days * spd := by
  simp [dayFilter]

theorem repStep_c3 (ctx : SynCtx) (m : ActivityModel) (num_days spd : ℕ) (vary : Bool)
    (reps : ℕ) (df : List Bool) (st st1 : SchedSt) (brk : Bool)
    (hdf : df.length = num_days * spd)
    (hua : st.user_available.length = num_days * spd)
    (htor : st.time_of_run.length = num_days * spd)
    (h : repStep ctx m num_days spd vary reps df st = some (st1, brk)) :
    st1.user_available.length = num_days * spd ∧
      ((st1.time_of_run = st.time_of_run ∧ st1.committed = st.committed) ∨
        ∃ s d, st1.committed = (s, d) :: st.committed ∧
          st1.time_of_run = setRange st.time_of_run s d false ∧
          s + d ≤ num_days * spd ∧
          ∀ i, s ≤ i → i < s + d → st.time_of_run.getD i false = true) := by
  unfold repStep at h
  rcases hpm : ActivityModel.process_model ctx { m with appliance_binding := st.binding }
      vary st.g with _ | res
  · rw [hpm] at h
    exact absurd h (by simp)
  · rw [hpm] at h
    obtain ⟨b1, duration, schedOpt, umin, umax, g1⟩ := res
    dsimp only at h
    rcases schedOpt with _ | sched
    · dsimp only at h
      simp only [Option.some_inj, Prod.mk.injEq] at h
      obtain ⟨rfl, -⟩ := h
      exact ⟨hua, Or.inl ⟨rfl, rfl⟩⟩
    · dsimp only at h
      have hlenAV : (availabilityOf umin st.user_available st.time_of_run df).length =
          num_days * spd :=
        length_availabilityOf umin _ _ _ _ hua htor hdf
      rcases he : get_earliest (availabilityOf umin st.user_available st.time_of_run df)
        with _ | e
      · rw [he] at h
        rcases hl : get_latest (availabilityOf umin st.user_available st.time_of_run df)
          with _ | l
        all_goals
          rw [hl] at h
          dsimp only at h
          simp only [Option.some_inj, Prod.mk.injEq] at h
          obtain ⟨rfl, -⟩ := h
          exact ⟨hua, Or.inl ⟨rfl, rfl⟩⟩
      · rw [he] at h
        rcases hl : get_latest (availabilityOf umin st.user_available st.time_of_run df)
          with _ | l
        · rw [hl] at h
          dsimp only at h
          simp only [Option.some_inj, Prod.mk.injEq] at h
          obtain ⟨rfl, -⟩ := h
          exact ⟨hua, Or.inl ⟨rfl, rfl⟩⟩
        · rw [hl] at h
          dsimp only at h
          by_cases hck : ((e : ℤ) > (l : ℤ) + 1 - (duration : ℤ))
          · rw [if_pos hck] at h
            simp only [Option.some_inj, Prod.mk.injEq] at h
            obtain ⟨rfl, -⟩ := h
            exact ⟨hua, Or.inl ⟨rfl, rfl⟩⟩
          · rw [if_neg hck] at h
            rcases hp : probeLoop (availabilityOf umin st.user_available st.time_of_run df)
                duration (num_days * spd) e ((l : ℤ) + 1 - duration) 10 g1 with ⟨pr, g2⟩
            rw [hp] at h
            dsimp only at h
            have hcommit : ∀ (s : ℕ) (ua1 : List Bool),
                sliceAll (availabilityOf umin st.user_available st.time_of_run df)
                  s duration = true →
                s + duration ≤ num_days * spd →
                (match runInstance ctx m.activity_type s sched b1 st.powers st.events
                    st.activity_power st.np with
                  | none => none
                  | some (b2, p2, e2, ap2, np2, _) =>
                    some ({ powers := p2,
                            events := e2,
                            time_of_run := setRange st.time_of_run s duration false,
                            user_available := ua1,
                            binding := b2,
                            activity_power := ap2,
                            failures := st.failures,
                            successes := st.successes + 1,
                            g := g2,
                            np := np2,
                            committed := (s, duration) :: st.committed }, false)) =
                  some (st1, brk) →
                ua1.length = num_days * spd →
                st1.user_available.length = num_days * spd ∧
                  ((st1.time_of_run = st.time_of_run ∧ st1.committed = st.committed) ∨
                    ∃ s d, st1.committed = (s, d) :: st.committed ∧
                      st1.time_of_run = setRange st.time_of_run s d false ∧
                      s + d ≤ num_days * spd ∧
                      ∀ i, s ≤ i → i < s + d → st.time_of_run.getD i false = true) := by
              intro s ua1 hsl hsb hh hua1
              rcases hri : runInstance ctx m.activity_type s sched b1 st.powers st.events
                  st.activity_power st.np with _ | res2
              · rw [hri] at hh
                exact absurd hh (by simp)
              · rw [hri] at hh
                obtain ⟨b2, p2, e2, ap2, np2, fin⟩ := res2
                dsimp only at hh
                simp only [Option.some_inj, Prod.mk.injEq] at hh
                obtain ⟨rfl, -⟩ := hh
                have hfreeTor : ∀ i, s ≤ i → i < s + duration →
                    st.time_of_run.getD i false = true := by
                  intro i h1 h2
                  have h3 := sliceAll_getD hsl (by rw [hlenAV]; exact hsb) i h1 h2
                  exact availabilityOf_getD_tor umin _ _ _ (num_days * spd) i hua htor hdf
                    (by omega) h3
                exact ⟨hua1, Or.inr ⟨s, duration, rfl, rfl, hsb, hfreeTor⟩⟩
            rcases pr with _ | s
            · dsimp only at h
              rcases hscan : exhaustiveScan
                  (availabilityOf umin st.user_available st.time_of_run df) duration
                  (num_days * spd) e (((l : ℤ) + 1 - duration - e).toNat) with _ | s
              · rw [hscan] at h
                dsimp only at h
                simp only [Option.some_inj, Prod.mk.injEq] at h
                obtain ⟨rfl, -⟩ := h
                exact ⟨hua, Or.inl ⟨rfl, rfl⟩⟩
              · rw [hscan] at h
                dsimp only at h
                have hs := exhaustiveScan_some _ _ _ _ _ _ hscan
                refine hcommit s _ hs.1 hs.2 h ?_
                rcases umin with _ | ue
                · exact hua
                · dsimp only
                  by_cases hum : 0 < umax
                  · rw [if_pos hum]
                    simp [hua]
                  · rw [if_neg hum]
                    exact hua
            · dsimp only at h
              have hs := probeLoop_some _ _ _ _ _ 10 g1 s g2 hp
              refine hcommit s _ hs.1 hs.2 h ?_
              rcases umin with _ | ue
              · exact hua
              · dsimp only
                by_cases hum : 0 < umax
                · rw [if_pos hum]
                  simp [hua]
                · rw [if_neg hum]
                  exact hua

theorem C3Core_commit (horizon : ℕ) (tor0 tor : List Bool) (comm : List (ℕ × ℕ))
    (s d : ℕ) (h : C3Core horizon tor0 tor comm) (h0 : tor0.length = horizon)
    (hbound : s + d ≤ horizon)
    (hfree : ∀ i, s ≤ i → i < s + d → tor.getD i false = true) :
    C3Core horizon tor0 (setRange tor s d false) ((s, d) :: comm) := by
  unfold C3Core at h
  obtain ⟨hlen, hpw, hwin, hform⟩ := h
  have hnotold : ∀ w ∈ comm, ∀ i, s ≤ i → i < s + d → ¬ (w.1 ≤ i ∧ i < w.1 + w.2) := by
    intro w hw i hi1 hi2 hcontra
    have hv := hfree i hi1 hi2
    rw [hform i] at hv
    have hcov : coveredBy comm i = true := by
      unfold coveredBy
      rw [List.any_eq_true]
      exact ⟨w, hw, by simp [hcontra.1, hcontra.2]⟩
    rw [hcov] at hv
    simp at hv
  unfold C3Core
  refine ⟨by simp [hlen], ?_, ?_, ?_⟩
  · refine List.Pairwise.cons ?_ hpw
    intro w hw
    unfold windowsDisjoint
    by_contra hc
    push_neg at hc
    obtain ⟨hd0, hw0, hc1, hc2⟩ := hc
    exact hnotold w hw (max s w.1) (by omega) (by omega) ⟨by omega, by omega⟩
  · intro w hw
    rcases List.mem_cons.mp hw with rfl | hw
    · constructor
      · refine sliceAll_of_getD (by omega) ?_
        intro i h1 h2
        have hv := hfree i h1 h2
        rw [hform i] at hv
        exact (Bool.and_eq_true_iff.mp hv).1
      · exact hbound
    · exact hwin w hw
  · intro i
    rw [getD_setRange]
    by_cases hin : s ≤ i ∧ i < s + d
    · rw [if_pos ⟨hin.1, hin.2, by omega⟩]
      simp only [coveredBy, List.any_cons, decide_eq_true hin.1, decide_eq_true hin.2,
        Bool.true_and, Bool.true_or, Bool.not_true, Bool.and_false]
    · rw [if_neg (by intro hx; exact hin ⟨hx.1, hx.2.1⟩)]
      rw [hform i]
      have hdec : (decide (s ≤ i) && decide (i < s + d)) = false := by
        simp only [Bool.and_eq_false_iff, decide_eq_false_iff_not]
        omega
      simp only [coveredBy, List.any_cons, hdec, Bool.false_or]

theorem repsLoop_c3 (ctx : SynCtx) (m : ActivityModel) (num_days spd : ℕ) (vary : Bool)
    (reps : ℕ) (df : List Bool) (tor0 : List Bool)
    (hdf : df.length = num_days * spd) (h0 : tor0.length = num_days * spd) :
    ∀ (r : ℕ) (st st1 : SchedSt),
      repsLoop ctx m num_days spd vary reps df r st = some st1 →
      st.user_available.length = num_days * spd →
      C3Core (num_days * spd) tor0 st.time_of_run st.committed →
      st1.user_available.length = num_days * spd ∧
        C3Core (num_days * spd) tor0 st1.time_of_run st1.committed := by
  intro r
  induction r with
  | zero =>
    intro st st1 h hua hc
    unfold repsLoop at h
    obtain rfl := Option.some_inj.mp h
    exact ⟨hua, hc⟩
  | succ n ih =>
    intro st st1 h hua hc
    unfold repsLoop at h
    rcases hstep : repStep ctx m num_days spd vary reps df st with _ | sb
    · rw [hstep] at h
      exact absurd h (by simp)
    · rw [hstep] at h
      obtain ⟨st2, brk⟩ := sb
      dsimp only at h
      have htor : st.time_of_run.length = num_days * spd := by
        unfold C3Core at hc
        exact hc.1
      obtain ⟨hua2, hdelta⟩ :=
        repStep_c3 ctx m num_days spd vary reps df st st2 brk hdf hua htor hstep
      have hc2 : C3Core (num_days * spd) tor0 st2.time_of_run st2.committed := by
        rcases hdelta with ⟨he1, he2⟩ | ⟨s, d, hcm, htr, hb, hfree⟩
        · rw [he1, he2]
          exact hc
        · rw [hcm, htr]
          exact C3Core_commit _ _ _ _ s d hc h0 hb hfree
      by_cases hbrk : brk = true
      · rw [if_pos hbrk] at h
        obtain rfl := Option.some_inj.mp h
        exact ⟨hua2, hc2⟩
      · rw [if_neg hbrk] at h
        exact ih st2 st1 h hua2 hc2

theorem dayStep_c3 (ctx : SynCtx) (m : ActivityModel) (num_days spd : ℕ) (vary : Bool)
    (rate : ℚ) (d : ℕ) (st st1 : SchedSt) (tor0 : List Bool)
    (h0 : tor0.length = num_days * spd)
    (h : dayStep ctx m num_days spd vary rate d st = some st1)
    (hua : st.user_available.length = num_days * spd)
    (hc : C3Core (num_days * spd) tor0 st.time_of_run st.committed) :
    st1.user_available.length = num_days * spd ∧
      C3Core (num_days * spd) tor0 st1.time_of_run st1.committed := by
  unfold dayStep at h
  rcases hr : repsFor rate st.g with ⟨reps, g1⟩
  rw [hr] at h
  dsimp only at h
  exact repsLoop_c3 ctx m num_days spd vary reps _ tor0 (length_dayFilter num_days spd d)
    h0 reps _ st1 h hua hc

theorem dayLoop_c3 (ctx : SynCtx) (m : ActivityModel) (num_days spd : ℕ) (vary : Bool)
    (rate : ℚ) (tor0 : List Bool) (h0 : tor0.length = num_days * spd) :
    ∀ (ds : List ℕ) (st st1 : SchedSt),
      dayLoop ctx m num_days spd vary rate ds st = some st1 →
      st.user_available.length = num_days * spd →
      C3Core (num_days * spd) tor0 st.time_of_run st.committed →
      st1.user_available.length = num_days * spd ∧
        C3Core (num_days * spd) tor0 st1.time_of_run st1.committed := by
  intro ds
  induction ds with
  | nil =>
    intro st st1 h hua hc
    unfold dayLoop at h
    obtain rfl := Option.some_inj.mp h
    exact ⟨hua, hc⟩
  | cons d rest ih =>
    intro st st1 h hua hc
    unfold dayLoop at h
    rcases hd : dayStep ctx m num_days spd vary rate d st with _ | st2
    · rw [hd] at h
      exact absurd h (by simp)
    · rw [hd] at h
      rw [Option.some_bind] at h
      have hstep := dayStep_c3 ctx m num_days spd vary rate d st st2 tor0 h0 hd hua hc
      exact ih st2 st1 h hstep.1 hstep.2

/-- C3: over one whole activity synthesis run, the committed windows are
pairwise disjoint, each was chosen only inside the horizon and only where
the activity's time-of-run bitmap was entirely free, and the final bitmap
is exactly the initial one with every committed window marked busy: each
window is cleared when committed and no busy bit (initial or committed) is
ever freed again. -/
theorem c3_committed_windows (ctx : SynCtx) (m : ActivityModel) (powers : Powers)
    (events : List Event) (num_days : ℕ) (rate : ℚ) (tor ua : List Bool) (spd : ℕ)
    (vary : Bool) (g : Rng) (np : NpRng) (res : SchedSt)
    (hres : ActivityModel.synthesize ctx m powers events num_days rate tor ua spd vary
      g np = some res)
    (htor : tor.length = num_days * spd)
    (hua : ua.length = num_days * spd) :
    List.Pairwise windowsDisjoint res.committed ∧
    res.committed.all
      (fun w => sliceAll tor w.1 w.2 && decide (w.1 + w.2 ≤ num_days * spd)) = true ∧
    res.time_of_run.length = tor.length ∧
    (List.range (num_days * spd)).all
      (fun i => res.time_of_run.getD i false ==
        (tor.getD i false && !coveredBy res.committed i)) = true := by
  unfold ActivityModel.synthesize at hres
  by_cases hb : m.appliance_binding.any (fun p => p.2.isNone) = true
  · rw [if_pos hb] at hres
    obtain rfl := Option.some_inj.mp hres
    refine ⟨List.Pairwise.nil, rfl, rfl, ?_⟩
    rw [List.all_eq_true]
    intro i hi
    simp [coveredBy]
  · rw [if_neg hb] at hres
    dsimp only at hres
    have hinit : C3Core (num_days * spd) tor tor [] := by
      unfold C3Core
      refine ⟨htor, List.Pairwise.nil, by simp, ?_⟩
      intro i
      simp [coveredBy]
    have hfin := dayLoop_c3 ctx m num_days spd vary rate tor htor (List.range num_days)
      _ res hres hua hinit
    have hcore := hfin.2
    unfold C3Core at hcore
    obtain ⟨hlen, hpw, hwin, hform⟩ := hcore
    refine ⟨hpw, ?_, by rw [hlen, htor], ?_⟩
    · rw [List.all_eq_true]
      intro w hw
      have hww := hwin w hw
      simp [hww.1, hww.2]
    · rw [List.all_eq_true]
      intro i hi
      rw [beq_iff_eq]
      exact hform i

/-! ## C10: the total entry and the per-user power arrays -/

theorem addArr_assoc : ∀ (a b c : List ℚ), addArr (addArr a b) c = addArr a (addArr b c) := by
  intro a
  induction a with
  | nil => intro b c; rfl
  | cons x t ih =>
    intro b c
    cases b with
    | nil => rfl
    | cons y u =>
      cases c with
      | nil => rfl
      | cons z v =>
        show (x + y + z) :: addArr (addArr t u) v = (x + (y + z)) :: addArr t (addArr u v)
        rw [add_assoc]
        exact congrArg _ (ih u v)

theorem addArr_zeros_right : ∀ (a : List ℚ), addArr a (zeros a.length) = a := by
  intro a
  induction a with
  | nil => rfl
  | cons x t ih =>
    show (x + 0) :: addArr t (zeros t.length) = x :: t
    rw [add_zero, ih]

theorem addArr_zeros_left : ∀ (n : ℕ) (b : List ℚ), b.length ≤ n → addArr (zeros n) b = b := by
  intro n
  induction n with
  | zero =>
    intro b hb
    have hb0 : b = [] := List.eq_nil_of_length_eq_zero (Nat.le_zero.mp hb)
    subst hb0
    rfl
  | succ m ih =>
    intro b hb
    cases b with
    | nil => rfl
    | cons y u =>
      show (0 + y) :: addArr (zeros m) u = y :: u
      have hu : u.length ≤ m := by
        simp only [List.length_cons] at hb
        omega
      rw [zero_add, ih u hu]

theorem foldl_addArr_shift (e : α → List ℚ) : ∀ (l : List α) (a b : List ℚ),
    l.foldl (fun acc n => addArr acc (e n)) (addArr a b) =
      addArr a (l.foldl (fun acc n => addArr acc (e n)) b) := by
  intro l
  induction l with
  | nil => intro a b; rfl
  | cons x t ih =>
    intro a b
    simp only [List.foldl_cons]
    rw [addArr_assoc]
    exact ih a (addArr b (e x))

theorem alistGet_powersAdd : ∀ (p : Powers) (k k2 : String) (v : List ℚ),
    alistGet (powersAdd p k v) k2 =
      if k2 = k then (alistGet p k2).map (fun a => addArr a v) else alistGet p k2 := by
  intro p
  induction p with
  | nil =>
    intro k k2 v
    by_cases h : k2 = k <;> simp [powersAdd, alistGet, h]
  | cons q t ih =>
    intro k k2 v
    show alistGet ((if q.1 = k then (q.1, addArr q.2 v) else q) :: powersAdd t k v) k2 = _
    by_cases hqk : q.1 = k <;> by_cases hq2 : q.1 = k2 <;> by_cases hk2 : k2 = k <;>
      simp_all [alistGet, ih]

theorem bindingLenOK_get (horizon : ℕ) (b : List (String × Option Appliance)) (t : String)
    (app : Appliance) (hb : bindingLenOK horizon b = true)
    (hg : alistGet b t = some (some app)) : app.total_power.length = horizon := by
  obtain ⟨p, hp, hv⟩ := alistGet_exists b t (some app) hg
  have hall := List.all_eq_true.mp hb p hp
  rw [hv] at hall
  simpa using hall

theorem runItems_c10 (ctx : SynCtx) (aty : String) (s : ℕ) (horizon : ℕ) :
    ∀ (sched : Sched) (b : List (String × Option Appliance)) (p : Powers)
      (e : List Event) (ap : List ℚ) (np : NpRng) (fin : ℤ)
      (b1 : List (String × Option Appliance)) (p1 : Powers) (e1 : List Event)
      (ap1 : List ℚ) (np1 : NpRng) (fin1 : ℤ),
      runItems ctx aty s sched (b, p, e, ap, np, fin) = some (b1, p1, e1, ap1, np1, fin1) →
      bindingLenOK horizon b = true →
      ap.length = horizon →
      bindingLenOK horizon b1 = true ∧ ap1.length = horizon ∧
        ∀ k, k ≠ aty → alistGet p1 k = alistGet p k := by
  intro sched
  induction sched with
  | nil =>
    intro b p e ap np fin b1 p1 e1 ap1 np1 fin1 h hb hap
    simp only [runItems, Option.some_inj, Prod.mk.injEq] at h
    obtain ⟨rfl, rfl, rfl, rfl, rfl, rfl⟩ := h
    exact ⟨hb, hap, fun k hk => rfl⟩
  | cons item rest ih =>
    intro b p e ap np fin b1 p1 e1 ap1 np1 fin1 h hb hap
    obtain ⟨a, t, dur⟩ := item
    simp only [runItems, Option.bind_eq_bind] at h
    rcases happ : (alistGet b t).bind id with _ | app
    · rw [happ] at h
      simp at h
    · rw [happ] at h
      simp only [Option.some_bind] at h
      rcases hs : app.synthesize ctx (s + a) dur np with _ | tr
      · rw [hs] at h
        simp at h
      · rw [hs] at h
        obtain ⟨cycle, app2, np2⟩ := tr
        simp only [Option.some_bind] at h
        have hga := bind_id_some happ
        have hlapp := bindingLenOK_get horizon b t app hb hga
        obtain ⟨-, -, -, -, hl5, -, hl7⟩ :=
          Appliance.synthesize_preserves ctx app (s + a) dur np cycle app2 np2 hs
        have hb2 : bindingLenOK horizon (alistSet b t (some app2)) = true :=
          alistSet_all _ b t (some app2) hb (by simpa using hl5.trans hlapp)
        have hap2 : (addArr ap cycle).length = horizon := by
          rw [length_addArr, hl7, hlapp, hap]
          exact Nat.min_self _
        obtain ⟨ihb, ihap, ihfr⟩ := ih _ _ _ _ _ _ _ _ _ _ _ _ h hb2 hap2
        refine ⟨ihb, ihap, fun k hk => ?_⟩
        rw [ihfr k hk, alistGet_powersAdd, if_neg hk]

theorem runInstance_c10 (ctx : SynCtx) (aty : String) (s : ℕ) (sched : Sched)
    (binding : List (String × Option Appliance)) (powers : Powers)
    (events : List Event) (ap : List ℚ) (np : NpRng)
    (b1 : List (String × Option Appliance)) (p1 : Powers) (e1 : List Event)
    (ap1 : List ℚ) (np1 : NpRng) (fin : ℤ) (horizon : ℕ)
    (h : runInstance ctx aty s sched binding powers events ap np =
      some (b1, p1, e1, ap1, np1, fin))
    (hb : bindingLenOK horizon binding = true) (hap : ap.length = horizon) :
    bindingLenOK horizon b1 = true ∧ ap1.length = horizon ∧
      ∀ k, k ≠ aty → alistGet p1 k = alistGet powers k := by
  unfold runInstance at h
  simp only [Option.bind_eq_bind] at h
  rcases ho : runItems ctx aty s sched
      (binding, powers, events ++ [⟨(s : ℤ), EvKind.ACT, aty, EvTrans.START⟩], ap, np, 0)
    with _ | out
  · rw [ho] at h
    simp at h
  · rw [ho] at h
    obtain ⟨ob, op, oe, oap, onp, ofin⟩ := out
    simp only [Option.some_bind, Option.some_inj] at h
    have hbb : ob = b1 := congrArg (fun x => x.1) h
    have hpp : op = p1 := congrArg (fun x => x.2.1) h
    have haa : oap = ap1 := congrArg (fun x => x.2.2.2.1) h
    subst hbb
    subst hpp
    subst haa
    exact runItems_c10 ctx aty s horizon sched _ _ _ _ _ _ _ _ _ _ _ _ ho hb hap

theorem repStep_c10 (ctx : SynCtx) (m : ActivityModel) (num_days spd : ℕ) (vary : Bool)
    (reps : ℕ) (df : List Bool) (st st1 : SchedSt) (brk : Bool) (horizon : ℕ)
    (hb : bindingLenOK horizon st.binding = true)
    (hap : st.activity_power.length = horizon)
    (h : repStep ctx m num_days spd vary reps df st = some (st1, brk)) :
    bindingLenOK horizon st1.binding = true ∧
      st1.activity_power.length = horizon ∧
      ∀ k, k ≠ m.activity_type → alistGet st1.powers k = alistGet st.powers k := by
  unfold repStep at h
  rcases hpm : ActivityModel.process_model ctx { m with appliance_binding := st.binding }
      vary st.g with _ | res
  · rw [hpm] at h
    exact absurd h (by simp)
  · rw [hpm] at h
    obtain ⟨b1, duration, schedOpt, umin, umax, g1⟩ := res
    dsimp only at h
    have hb1 : bindingLenOK horizon b1 = true :=
      (process_model_binding ctx { m with appliance_binding := st.binding } vary st.g
        b1 duration schedOpt umin umax g1 hpm).2 horizon hb
    rcases schedOpt with _ | sched
    · dsimp only at h
      simp only [Option.some_inj, Prod.mk.injEq] at h
      obtain ⟨rfl, -⟩ := h
      exact ⟨hb1, hap, fun k hk => rfl⟩
    · dsimp only at h
      rcases he : get_earliest (availabilityOf umin st.user_available st.time_of_run df)
        with _ | e
      · rw [he] at h
        rcases hl : get_latest (availabilityOf umin st.user_available st.time_of_run df)
          with _ | l
        all_goals
          rw [hl] at h
          dsimp only at h
          simp only [Option.some_inj, Prod.mk.injEq] at h
          obtain ⟨rfl, -⟩ := h
          exact ⟨hb1, hap, fun k hk => rfl⟩
      · rw [he] at h
        rcases hl : get_latest (availabilityOf umin st.user_available st.time_of_run df)
          with _ | l
        · rw [hl] at h
          dsimp only at h
          simp only [Option.some_inj, Prod.mk.injEq] at h
          obtain ⟨rfl, -⟩ := h
          exact ⟨hb1, hap, fun k hk => rfl⟩
        · rw [hl] at h
          dsimp only at h
          by_cases hck : ((e : ℤ) > (l : ℤ) + 1 - (duration : ℤ))
          · rw [if_pos hck] at h
            simp only [Option.some_inj, Prod.mk.injEq] at h
            obtain ⟨rfl, -⟩ := h
            exact ⟨hb1, hap, fun k hk => rfl⟩
          · rw [if_neg hck] at h
            rcases hp : probeLoop (availabilityOf umin st.user_available st.time_of_run df)
                duration (num_days * spd) e ((l : ℤ) + 1 - duration) 10 g1 with ⟨pr, g2⟩
            rw [hp] at h
            dsimp only at h
            have hcommit : ∀ (s : ℕ) (ua1 : List Bool),
                (match runInstance ctx m.activity_type s sched b1 st.powers st.events
                    st.activity_power st.np with
                  | none => none
                  | some (b2, p2, e2, ap2, np2, _) =>
                    some ({ powers := p2,
                            events := e2,
                            time_of_run := setRange st.time_of_run s duration false,
                            user_available := ua1,
                            binding := b2,
                            activity_power := ap2,
                            failures := st.failures,
                            successes := st.successes + 1,
                            g := g2,
                            np := np2,
                            committed := (s, duration) :: st.committed }, false)) =
                  some (st1, brk) →
                bindingLenOK horizon st1.binding = true ∧
                  st1.activity_power.length = horizon ∧
                  ∀ k, k ≠ m.activity_type →
                    alistGet st1.powers k = alistGet st.powers k := by
              intro s ua1 hh
              rcases hri : runInstance ctx m.activity_type s sched b1 st.powers st.events
                  st.activity_power st.np with _ | res2
              · rw [hri] at hh
                exact absurd hh (by simp)
              · rw [hri] at hh
                obtain ⟨b2, p2, e2, ap2, np2, fin⟩ := res2
                dsimp only at hh
                simp only [Option.some_inj, Prod.mk.injEq] at hh
                obtain ⟨rfl, -⟩ := hh
                exact runInstance_c10 ctx m.activity_type s sched b1 st.powers st.events
                  st.activity_power st.np b2 p2 e2 ap2 np2 fin horizon hri hb1 hap
            rcases pr with _ | s
            · dsimp only at h
              rcases hscan : exhaustiveScan
                  (availabilityOf umin st.user_available st.time_of_run df) duration
                  (num_days * spd) e (((l : ℤ) + 1 - duration - e).toNat) with _ | s
              · rw [hscan] at h
                dsimp only at h
                simp only [Option.some_inj, Prod.mk.injEq] at h
                obtain ⟨rfl, -⟩ := h
                exact ⟨hb1, hap, fun k hk => rfl⟩
              · rw [hscan] at h
                dsimp only at h
                exact hcommit s _ h
            · dsimp only at h
              exact hcommit s _ h

theorem repsLoop_c10 (ctx : SynCtx) (m : ActivityModel) (num_days spd : ℕ) (vary : Bool)
    (reps : ℕ) (df : List Bool) (horizon : ℕ) :
    ∀ (r : ℕ) (st st1 : SchedSt),
      repsLoop ctx m num_days spd vary reps df r st = some st1 →
      bindingLenOK horizon st.binding = true →
      st.activity_power.length = horizon →
      bindingLenOK horizon st1.binding = true ∧
        st1.activity_power.length = horizon ∧
        ∀ k, k ≠ m.activity_type → alistGet st1.powers k = alistGet st.powers k := by
  intro r
  induction r with
  | zero =>
    intro st st1 h hb hap
    unfold repsLoop at h
    obtain rfl := Option.some_inj.mp h
    exact ⟨hb, hap, fun k hk => rfl⟩
  | succ n ih =>
    intro st st1 h hb hap
    unfold repsLoop at h
    rcases hstep : repStep ctx m num_days spd vary reps df st with _ | sb
    · rw [hstep] at h
      exact absurd h (by simp)
    · rw [hstep] at h
      obtain ⟨st2, brk⟩ := sb
      dsimp only at h
      obtain ⟨hb2, hap2, hfr2⟩ :=
        repStep_c10 ctx m num_days spd vary reps df st st2 brk horizon hb hap hstep
      by_cases hbrk : brk = true
      · rw [if_pos hbrk] at h
        obtain rfl := Option.some_inj.mp h
        exact ⟨hb2, hap2, hfr2⟩
      · rw [if_neg hbrk] at h
        obtain ⟨hb3, hap3, hfr3⟩ := ih st2 st1 h hb2 hap2
        exact ⟨hb3, hap3, fun k hk => (hfr3 k hk).trans (hfr2 k hk)⟩

theorem dayStep_c10 (ctx : SynCtx) (m : ActivityModel) (num_days spd : ℕ) (vary : Bool)
    (rate : ℚ) (d : ℕ) (st st1 : SchedSt) (horizon : ℕ)
    (h : dayStep ctx m num_days spd vary rate d st = some st1)
    (hb : bindingLenOK horizon st.binding = true)
    (hap : st.activity_power.length = horizon) :
    bindingLenOK horizon st1.binding = true ∧
      st1.activity_power.length = horizon ∧
      ∀ k, k ≠ m.activity_type → alistGet st1.powers k = alistGet st.powers k := by
  unfold dayStep at h
  rcases hr : repsFor rate st.g with ⟨reps, g1⟩
  rw [hr] at h
  dsimp only at h
  exact repsLoop_c10 ctx m num_days spd vary reps (dayFilter num_days spd d) horizon reps
    { st with g := g1 } st1 h hb hap

theorem dayLoop_c10 (ctx : SynCtx) (m : ActivityModel) (num_days spd : ℕ) (vary : Bool)
    (rate : ℚ) (horizon : ℕ) :
    ∀ (ds : List ℕ) (st st1 : SchedSt),
      dayLoop ctx m num_days spd vary rate ds st = some st1 →
      bindingLenOK horizon st.binding = true →
      st.activity_power.length = horizon →
      bindingLenOK horizon st1.binding = true ∧
        st1.activity_power.length = horizon ∧
        ∀ k, k ≠ m.activity_type → alistGet st1.powers k = alistGet st.powers k := by
  intro ds
  induction ds with
  | nil =>
    intro st st1 h hb hap
    unfold dayLoop at h
    obtain rfl := Option.some_inj.mp h
    exact ⟨hb, hap, fun k hk => rfl⟩
  | cons d rest ih =>
    intro st st1 h hb hap
    unfold dayLoop at h
    rcases hd : dayStep ctx m num_days spd vary rate d st with _ | st2
    · rw [hd] at h
      exact absurd h (by simp)
    · rw [hd] at h
      rw [Option.some_bind] at h
      obtain ⟨hb2, hap2, hfr2⟩ :=
        dayStep_c10 ctx m num_days spd vary rate d st st2 horizon hd hb hap
      obtain ⟨hb3, hap3, hfr3⟩ := ih st2 st1 h hb2 hap2
      exact ⟨hb3, hap3, fun k hk => (hfr3 k hk).trans (hfr2 k hk)⟩

theorem synthesize_c10 (ctx : SynCtx) (m : ActivityModel) (powers : Powers)
    (events : List Event) (num_days : ℕ) (rate : ℚ) (tor ua : List Bool) (spd : ℕ)
    (vary : Bool) (g : Rng) (np : NpRng) (r : SchedSt)
    (h : ActivityModel.synthesize ctx m powers events num_days rate tor ua spd vary
      g np = some r)
    (hb : bindingLenOK (num_days * spd) m.appliance_binding = true) :
    r.activity_power.length = num_days * spd ∧
      ∀ k, k ≠ m.activity_type → alistGet r.powers k = alistGet powers k := by
  unfold ActivityModel.synthesize at h
  by_cases hun : m.appliance_binding.any (fun p => p.2.isNone) = true
  · rw [if_pos hun] at h
    obtain rfl := Option.some_inj.mp h
    exact ⟨by simp [zeros], fun k hk => rfl⟩
  · rw [if_neg hun] at h
    dsimp only at h
    obtain ⟨-, hap, hfr⟩ := dayLoop_c10 ctx m num_days spd vary rate (num_days * spd)
      (List.range num_days) _ r h hb (by simp [zeros])
    refine ⟨hap, fun k hk => ?_⟩
    rw [hfr k hk]
    by_cases hpk : (alistGet powers m.activity_type).isSome = true
    · rw [if_pos hpk]
    · rw [if_neg hpk]
      exact alistGet_set_ne powers m.activity_type k _ hk

theorem shuffleByKeys_mem (l : List α) (g : Rng) (x : α)
    (hx : x ∈ (shuffleByKeys l g).1) : x ∈ l := by
  unfold shuffleByKeys at hx
  rcases hd : shuffleDraws l.length g with ⟨ks, g1⟩
  rw [hd] at hx
  dsimp only at hx
  rw [List.mem_map] at hx
  obtain ⟨pr, hpr, hfst⟩ := hx
  have hperm := List.perm_insertionSort (fun a b : α × ℚ => a.2 ≤ b.2) (l.zip ks)
  have hmem := hperm.mem_iff.mp hpr
  rw [← hfst]
  exact (List.of_mem_zip hmem).1

theorem userActLoop_c10 (ctx : SynCtx) (uname : String) (days spd : ℕ) (vary : Bool)
    (huname : uname ≠ "total") :
    ∀ (acts : List UserActivity) (powers : Powers) (events : List Event)
      (avail : List Bool) (g : Rng) (np : NpRng)
      (p1 : Powers) (e1 : List Event) (av1 : List Bool) (g1 : Rng) (np1 : NpRng)
      (base U : List ℚ),
      userActLoop ctx uname days spd vary acts powers events avail g np =
        some (p1, e1, av1, g1, np1) →
      (∀ a ∈ acts, a.model.activity_type ≠ "total" ∧ a.model.activity_type ≠ uname ∧
        bindingLenOK (days * spd) a.model.appliance_binding = true) →
      alistGet powers uname = some U →
      U.length = days * spd →
      alistGet powers "total" = some (addArr base U) →
      ∃ U1, alistGet p1 uname = some U1 ∧ U1.length = days * spd ∧
        alistGet p1 "total" = some (addArr base U1) ∧
        ∀ k, k ≠ uname → k ≠ "total" →
          (∀ a ∈ acts, k ≠ a.model.activity_type) →
          alistGet p1 k = alistGet powers k := by
  intro acts
  induction acts with
  | nil =>
    intro powers events avail g np p1 e1 av1 g1 np1 base U h hacts hU hUlen hT
    simp only [userActLoop, Option.some_inj, Prod.mk.injEq] at h
    obtain ⟨rfl, rfl, rfl, rfl, rfl⟩ := h
    exact ⟨U, hU, hUlen, hT, fun k hk1 hk2 hk3 => rfl⟩
  | cons a rest ih =>
    intro powers events avail g np p1 e1 av1 g1 np1 base U h hacts hU hUlen hT
    simp only [userActLoop] at h
    rcases hsyn : ActivityModel.synthesize ctx a.model powers events days a.runs_per_day
        a.possible_runtimes avail spd vary g np with _ | r
    · rw [hsyn] at h
      simp at h
    · rw [hsyn] at h
      dsimp only at h
      have hha := hacts a (by simp)
      obtain ⟨haplen, hfr⟩ := synthesize_c10 ctx a.model powers events days a.runs_per_day
        a.possible_runtimes avail spd vary g np r hsyn hha.2.2
      have hU2 : alistGet r.powers uname = some U := by
        rw [hfr uname (fun hh => hha.2.1 hh.symm)]
        exact hU
      have hT2 : alistGet r.powers "total" = some (addArr base U) := by
        rw [hfr "total" (fun hh => hha.1 hh.symm)]
        exact hT
      have hUn : alistGet (powersAdd (powersAdd r.powers uname r.activity_power)
          "total" r.activity_power) uname = some (addArr U r.activity_power) := by
        rw [alistGet_powersAdd, if_neg huname, alistGet_powersAdd, if_pos rfl, hU2]
        rfl
      have hTn : alistGet (powersAdd (powersAdd r.powers uname r.activity_power)
          "total" r.activity_power) "total" =
          some (addArr base (addArr U r.activity_power)) := by
        rw [alistGet_powersAdd, if_pos rfl, alistGet_powersAdd,
          if_neg (fun hh => huname hh.symm), hT2]
        simp only [Option.map_some']
        rw [addArr_assoc]
      have hUnlen : (addArr U r.activity_power).length = days * spd := by
        rw [length_addArr, hUlen, haplen]
        exact Nat.min_self _
      obtain ⟨U1, h1, h2, h3, h4⟩ := ih _ _ _ _ _ _ _ _ _ _ base
        (addArr U r.activity_power) h (fun x hx => hacts x (by simp [hx]))
        hUn hUnlen hTn
      refine ⟨U1, h1, h2, h3, fun k hk1 hk2 hk3 => ?_⟩
      rw [h4 k hk1 hk2 (fun x hx => hk3 x (by simp [hx]))]
      rw [alistGet_powersAdd, if_neg hk2, alistGet_powersAdd, if_neg hk1]
      exact hfr k (hk3 a (by simp))

theorem userSynthesize_c10 (ctx : SynCtx) (u : UserModel) (all_powers : Powers)
    (all_events : List Event) (spd : ℕ) (vary : Bool) (g : Rng) (np : NpRng)
    (p1 : Powers) (e1 : List Event) (av1 : List Bool) (g1 : Rng) (np1 : NpRng)
    (T0 : List ℚ)
    (h : u.synthesize ctx all_powers all_events spd vary g np =
      some (p1, e1, av1, g1, np1))
    (huname : u.uname ≠ "total")
    (hacts : ∀ a ∈ u.activities, a.model.activity_type ≠ "total" ∧
      a.model.activity_type ≠ u.uname ∧
      bindingLenOK (u.days * spd) a.model.appliance_binding = true)
    (hT : alistGet all_powers "total" = some T0)
    (hTlen : T0.length = u.days * spd) :
    ∃ U1, alistGet p1 u.uname = some U1 ∧ U1.length = u.days * spd ∧
      alistGet p1 "total" = some (addArr T0 U1) ∧
      ∀ k, k ≠ u.uname → k ≠ "total" →
        (∀ a ∈ u.activities, k ≠ a.model.activity_type) →
        alistGet p1 k = alistGet all_powers k := by
  unfold UserModel.synthesize at h
  rcases hs : shuffleByKeys u.activities g with ⟨acts, gs⟩
  rw [hs] at h
  dsimp only at h
  have hmem : ∀ a ∈ acts, a ∈ u.activities := by
    intro a ha
    refine shuffleByKeys_mem u.activities g a ?_
    rw [hs]
    exact ha
  have hU0 : alistGet (alistSet all_powers u.uname (zeros (u.days * spd))) u.uname =
      some (zeros (u.days * spd)) := alistGet_set _ _ _
  have hT0 : alistGet (alistSet all_powers u.uname (zeros (u.days * spd))) "total" =
      some (addArr T0 (zeros (u.days * spd))) := by
    rw [alistGet_set_ne all_powers u.uname "total" _ (fun hh => huname hh.symm), hT,
      ← hTlen, addArr_zeros_right]
  obtain ⟨U1, h1, h2, h3, h4⟩ := userActLoop_c10 ctx u.uname u.days spd vary huname
    acts _ all_events u.availability gs np p1 e1 av1 g1 np1 T0
    (zeros (u.days * spd)) h (fun a ha => hacts a (hmem a ha)) hU0 (by simp [zeros]) hT0
  refine ⟨U1, h1, h2, h3, fun k hk1 hk2 hk3 => ?_⟩
  rw [h4 k hk1 hk2 (fun a ha => hk3 a (hmem a ha))]
  exact alistGet_set_ne all_powers u.uname k _ hk1

theorem runUsers_c10 (ctx : SynCtx) (days spd : ℕ) (vary : Bool) :
    ∀ (us : List UserModel) (powers : Powers) (events : List Event) (g : Rng) (np : NpRng)
      (p1 : Powers) (e1 : List Event) (g1 : Rng) (np1 : NpRng) (T0 : List ℚ),
      runUsers ctx spd vary us powers events g np = some (p1, e1, g1, np1) →
      (us.map (fun u => u.uname)).Nodup →
      "total" ∉ us.map (fun u => u.uname) →
      (∀ u ∈ us, u.days = days) →
      (∀ u ∈ us, ∀ a ∈ u.activities, a.model.activity_type ≠ "total" ∧
        a.model.activity_type ∉ us.map (fun u => u.uname) ∧
        bindingLenOK (days * spd) a.model.appliance_binding = true) →
      alistGet powers "total" = some T0 →
      T0.length = days * spd →
      alistGet p1 "total" =
        some (addArr T0 (userPowerSum p1 (us.map (fun u => u.uname)) (days * spd))) ∧
      (userPowerSum p1 (us.map (fun u => u.uname)) (days * spd)).length = days * spd ∧
      ∀ k, k ≠ "total" → k ∉ us.map (fun u => u.uname) →
        (∀ u ∈ us, ∀ a ∈ u.activities, k ≠ a.model.activity_type) →
        alistGet p1 k = alistGet powers k := by
  intro us
  induction us with
  | nil =>
    intro powers events g np p1 e1 g1 np1 T0 h hnodup hnt hdays hact hT hTlen
    simp only [runUsers, Option.some_inj, Prod.mk.injEq] at h
    obtain ⟨rfl, rfl, rfl, rfl⟩ := h
    refine ⟨?_, by simp [userPowerSum, zeros], fun k hk1 hk2 hk3 => rfl⟩
    rw [hT]
    show _ = some (addArr T0 (zeros (days * spd)))
    rw [← hTlen, addArr_zeros_right]
  | cons u rest ih =>
    intro powers events g np p1 e1 g1 np1 T0 h hnodup hnt hdays hact hT hTlen
    simp only [runUsers] at h
    rcases hsu : u.synthesize ctx powers events spd vary g np with _ | res
    · rw [hsu] at h
      simp at h
    · rw [hsu] at h
      obtain ⟨pu, eu, avu, gu, npu⟩ := res
      dsimp only at h
      have hud : u.days = days := hdays u (by simp)
      have hun : u.uname ≠ "total" := by
        intro hh
        exact hnt (by simp [hh])
      obtain ⟨U1, hu1, hl1, ht1, hframeu⟩ := userSynthesize_c10 ctx u powers events spd
        vary g np pu eu avu gu npu T0 hsu hun
        (fun a ha => by
          obtain ⟨x1, x2, x3⟩ := hact u (by simp) a ha
          refine ⟨x1, ?_, by rw [hud]; exact x3⟩
          intro hh
          exact x2 (by simp [hh]))
        hT (by rw [hud]; exact hTlen)
      rw [hud] at hl1
      have hTlen2 : (addArr T0 U1).length = days * spd := by
        rw [length_addArr, hTlen, hl1]
        exact Nat.min_self _
      have hnodup2 : (rest.map (fun u => u.uname)).Nodup := by
        simp only [List.map_cons, List.nodup_cons] at hnodup
        exact hnodup.2
      have hnt2 : "total" ∉ rest.map (fun u => u.uname) := by
        intro hh
        exact hnt (by simp [hh])
      have hact2 : ∀ v ∈ rest, ∀ a ∈ v.activities, a.model.activity_type ≠ "total" ∧
          a.model.activity_type ∉ rest.map (fun u => u.uname) ∧
          bindingLenOK (days * spd) a.model.appliance_binding = true := by
        intro v hv a ha
        obtain ⟨x1, x2, x3⟩ := hact v (by simp [hv]) a ha
        refine ⟨x1, ?_, x3⟩
        intro hh
        exact x2 (by simp [hh])
      obtain ⟨ih1, ih2, ih3⟩ := ih pu eu gu npu p1 e1 g1 np1 (addArr T0 U1) h hnodup2
        hnt2 (fun v hv => hdays v (by simp [hv])) hact2 ht1 hTlen2
      have huentry : alistGet p1 u.uname = some U1 := by
        rw [ih3 u.uname hun ?_ ?_]
        · exact hu1
        · simp only [List.map_cons, List.nodup_cons] at hnodup
          exact hnodup.1
        · intro v hv a ha
          intro hh
          obtain ⟨-, x2, -⟩ := hact v (by simp [hv]) a ha
          exact x2 (by simp [← hh])
      have hU1z : U1 = addArr U1 (zeros (days * spd)) := by
        rw [← hl1, addArr_zeros_right]
      have hstep : addArr (zeros (days * spd))
          ((alistGet p1 u.uname).getD (zeros (days * spd))) = U1 := by
        rw [huentry]
        show addArr (zeros (days * spd)) U1 = U1
        exact addArr_zeros_left _ _ (le_of_eq hl1)
      have hsum : userPowerSum p1 ((u :: rest).map (fun v => v.uname)) (days * spd) =
          addArr U1 (userPowerSum p1 (rest.map (fun v => v.uname)) (days * spd)) := by
        unfold userPowerSum
        simp only [List.map_cons, List.foldl_cons]
        rw [hstep]
        conv_lhs => rw [hU1z]
        exact foldl_addArr_shift _ _ U1 (zeros (days * spd))
      refine ⟨?_, ?_, ?_⟩
      · rw [ih1, hsum, ← addArr_assoc]
      · rw [hsum, length_addArr, hl1, ih2]
        exact Nat.min_self _
      · intro k hk1 hk2 hk3
        have hk2h : k ≠ u.uname := by
          intro hh
          exact hk2 (by simp [hh])
        have hk2t : k ∉ rest.map (fun u => u.uname) := by
          intro hh
          exact hk2 (by simp [hh])
        rw [ih3 k hk1 hk2t (fun v hv a ha => hk3 v (by simp [hv]) a ha)]
        exact hframeu k hk2h hk1 (fun a ha => hk3 u (by simp) a ha)

/-- C3 witness: the committed windows of the one-day example run. -/
theorem c3_committed_windows_witness :
    List.Pairwise windowsDisjoint (c3run.getD dummySt).committed ∧
    (c3run.getD dummySt).committed.all
      (fun w => sliceAll (List.replicate 10 true) w.1 w.2 &&
        decide (w.1 + w.2 ≤ 1 * 10)) = true ∧
    (c3run.getD dummySt).time_of_run.length = (List.replicate 10 true).length ∧
    (List.range (1 * 10)).all
      (fun i => (c3run.getD dummySt).time_of_run.getD i false ==
        ((List.replicate 10 true).getD i false &&
          !coveredBy (c3run.getD dummySt).committed i)) = true :=
  c3_committed_windows exCtx c3act [] [] 1 1 (List.replicate 10 true)
    (List.replicate 10 true) 10 false (0, halfStream) (0, halfStream)
    (c3run.getD dummySt) (by with_unfolding_all rfl) (by decide) (by decide)

/-- C10 amended: with pairwise distinct user names, none of them equal to
the reserved key total, matching per-user day counts, horizon-length bound
appliance arrays and — the assumption the original claim is missing — no
activity type colliding with the total key or with any user name, the
total entry of the final powers dict equals the elementwise sum of all
per-user power arrays: every activity contribution is added to the owning
user's array and to the total array alike, and both start all-zero. -/
theorem c10_total_equals_user_sum (ctx : SynCtx) (days spd : ℕ) (vary : Bool)
    (users : List UserModel) (g : Rng) (np : NpRng)
    (p : Powers) (ev : List Event) (g1 : Rng) (np1 : NpRng)
    (hres : mainSynthesize ctx days spd vary users g np = some (p, ev, g1, np1))
    (hnodup : (users.map (fun u => u.uname)).Nodup)
    (hnt : "total" ∉ users.map (fun u => u.uname))
    (hdays : ∀ u ∈ users, u.days = days)
    (hact : ∀ u ∈ users, ∀ a ∈ u.activities, a.model.activity_type ≠ "total" ∧
      a.model.activity_type ∉ users.map (fun u => u.uname) ∧
      bindingLenOK (days * spd) a.model.appliance_binding = true) :
    alistGet p "total" =
      some (userPowerSum p (users.map (fun u => u.uname)) (days * spd)) := by
  unfold mainSynthesize at hres
  obtain ⟨h1, h2, -⟩ := runUsers_c10 ctx days spd vary users
    [("total", zeros (days * spd))] [] g np p ev g1 np1 (zeros (days * spd)) hres
    hnodup hnt hdays hact (by simp [alistGet]) (by simp [zeros])
  rw [h1, addArr_zeros_left _ _ (le_of_eq h2)]

/-- C10 witness: the run of the single user u with activity type act. -/
theorem c10_total_equals_user_sum_witness :
    alistGet (c10wrun.getD ([], [], (0, halfStream), (0, halfStream))).1 "total" =
      some (userPowerSum (c10wrun.getD ([], [], (0, halfStream), (0, halfStream))).1
        ([c10wUser].map (fun u => u.uname)) (1 * 10)) :=
  c10_total_equals_user_sum exCtx 1 10 false [c10wUser] (0, halfStream) (0, halfStream)
    (c10wrun.getD ([], [], (0, halfStream), (0, halfStream))).1
    (c10wrun.getD ([], [], (0, halfStream), (0, halfStream))).2.1
    (c10wrun.getD ([], [], (0, halfStream), (0, halfStream))).2.2.1
    (c10wrun.getD ([], [], (0, halfStream), (0, halfStream))).2.2.2
    (by with_unfolding_all rfl) (by decide) (by decide) (by decide) (by decide)

/-- C10 counterexample: a single user whose name equals the activity type
of its one activity satisfies every assumption of the original claim (user
names pairwise distinct, none equal to total), yet after its synthesis the
total array holds one contribution of each committed cycle while the
user's array holds two (one as the per-activity-type entry, one as the
per-user entry), so the total entry differs from the sum of the per-user
arrays. -/
theorem c10_name_collision_counterexample :
    ([c10user].map (fun u => u.uname)).Nodup ∧
    "total" ∉ [c10user].map (fun u => u.uname) ∧
    c10run.isSome = true ∧
    alistGet (c10run.getD ([], [], (0, halfStream), (0, halfStream))).1 "total" =
      some [0, 0, 0, 0, 0, 60, 60, 0, 0, 0] ∧
    userPowerSum (c10run.getD ([], [], (0, halfStream), (0, halfStream))).1
      ([c10user].map (fun u => u.uname)) (1 * 10) =
      [0, 0, 0, 0, 0, 120, 120, 0, 0, 0] ∧
    alistGet (c10run.getD ([], [], (0, halfStream), (0, halfStream))).1 "total" ≠
      some (userPowerSum (c10run.getD ([], [], (0, halfStream), (0, halfStream))).1
        ([c10user].map (fun u => u.uname)) (1 * 10)) := by
  have h1 : alistGet (c10run.getD ([], [], (0, halfStream), (0, halfStream))).1 "total" =
      some [0, 0, 0, 0, 0, 60, 60, 0, 0, 0] := by with_unfolding_all rfl
  have h2 : userPowerSum (c10run.getD ([], [], (0, halfStream), (0, halfStream))).1
      ([c10user].map (fun u => u.uname)) (1 * 10) =
      [0, 0, 0, 0, 0, 120, 120, 0, 0, 0] := by with_unfolding_all rfl
  refine ⟨by decide, by decide, by with_unfolding_all rfl, h1, h2, ?_⟩
  intro hc
  rw [h1, h2] at hc
  simp only [Option.some_inj, List.cons.injEq] at hc
  exact absurd hc.2.2.2.2.2.1 (by norm_num)

end Antgen
